import Mathlib

/-!
Verification of the Attribute variant-value core of `riscv_vhdl`
(src/debugger/src/common/attribute.cpp): the tagged-union value type,
its list/dict mutators, in-place quicksort ordering, and the textual
codec (`attribute_to_string` / `string_to_attribute`).

The shallow embedding models:
  * `Attr`               — the tagged union `AttributeType` (kind + payload);
  * `encA`               — `attribute_to_string` writing into the scratch buffer;
  * `s2a`                — `string_to_attribute`, position-based over the input
                           characters, with explicit fuel for the C loops;
  * list/dict mutators   — `swap_list_item`, `remove_from_list`, `trim_list`,
                           dict `operator[]` (auto-vivifying) and `has_key`;
  * ordering             — `partition` / `quicksort` / `AttributeType::sort`.

C strings are `List Char`; the terminating NUL is modelled by reading
`nulC` past the end of the list (`charAt`).  Bytes are `Nat` values,
well-formed when `< 256`.  Machine integers are `Int`/`Nat` with explicit
`% 2^64` where the code reinterprets signed/unsigned bit patterns.
-/

namespace RV

/-- The C string terminator, `'\0'`. -/
def nulC : Char := Char.ofNat 0

/-- Read character `i` of the input; reading at or past the end yields the
terminating NUL, exactly as the C parser sees the `'\0'` terminator. -/
def charAt (s : List Char) (i : Nat) : Char := s.getD i nulC

/-- The tagged union `AttributeType`: one constructor per kind the claims
touch.  `data` bytes are `Nat` (well-formed when `< 256`); `dict` pairs are
`(key, value)` where a well-formed key is an `Attr.string` — pairs are kept
as two full `Attr` slots because `swap_list_item` reinterprets the dict
storage as a flat array of `AttributeType` (`AttributePairType` lays out
`key_` and `value_` as two consecutive `AttributeType` slots).
`iface` models an `InterfaceRef` bound to a service, identified by the
object name the decoder resolved (the live handle itself is external). -/
inductive Attr : Type where
  | nil : Attr
  | boolean : Bool → Attr
  | int64 : Int → Attr
  | uint64 : Nat → Attr
  | string : List Char → Attr
  | data : List Nat → Attr
  | list : List Attr → Attr
  | dict : List (Attr × Attr) → Attr
  | iface : List Char → Attr
deriving Repr

mutual

/-- Structural equality test on attributes (deep value equality). -/
def beqA : Attr → Attr → Bool
  | .nil, .nil => true
  | .boolean a, .boolean b => a == b
  | .int64 a, .int64 b => a == b
  | .uint64 a, .uint64 b => a == b
  | .string a, .string b => a == b
  | .data a, .data b => a == b
  | .list a, .list b => beqListA a b
  | .dict a, .dict b => beqPairsA a b
  | .iface a, .iface b => a == b
  | _, _ => false

/-- Elementwise equality of attribute lists. -/
def beqListA : List Attr → List Attr → Bool
  | [], [] => true
  | a :: as, b :: bs => beqA a b && beqListA as bs
  | _, _ => false

/-- Pairwise equality of dict pair lists. -/
def beqPairsA : List (Attr × Attr) → List (Attr × Attr) → Bool
  | [], [] => true
  | (k1, v1) :: ps, (k2, v2) :: qs => beqA k1 k2 && beqA v1 v2 && beqPairsA ps qs
  | _, _ => false

end

theorem beqListA_sound (as : List Attr)
    (ih : ∀ x ∈ as, ∀ y, beqA x y = true → x = y) :
    ∀ bs, beqListA as bs = true → as = bs := by
  induction as with
  | nil => intro bs h; cases bs with
    | nil => rfl
    | cons b bs => simp [beqListA] at h
  | cons a as ihl =>
    intro bs h
    cases bs with
    | nil => simp [beqListA] at h
    | cons b bs =>
      simp only [beqListA, Bool.and_eq_true] at h
      have h1 := ih a (by simp) b h.1
      have h2 := ihl (fun x hx y => ih x (by simp [hx]) y) bs h.2
      rw [h1, h2]

theorem beqPairsA_sound (ps : List (Attr × Attr))
    (ih : ∀ p ∈ ps, ∀ y, (beqA p.1 y = true → p.1 = y) ∧ (beqA p.2 y = true → p.2 = y)) :
    ∀ qs, beqPairsA ps qs = true → ps = qs := by
  induction ps with
  | nil => intro qs h; cases qs with
    | nil => rfl
    | cons q qs => simp [beqPairsA] at h
  | cons p ps ihl =>
    intro qs h
    cases qs with
    | nil => cases p; simp [beqPairsA] at h
    | cons q qs =>
      cases p with
      | mk k1 v1 =>
        cases q with
        | mk k2 v2 =>
          simp only [beqPairsA, Bool.and_eq_true] at h
          have hk := (ih (k1, v1) (by simp) k2).1 h.1.1
          have hv := (ih (k1, v1) (by simp) v2).2 h.1.2
          have hr := ihl (fun x hx y => ih x (by simp [hx]) y) qs h.2
          rw [show k1 = k2 from hk, show v1 = v2 from hv, hr]

theorem beqA_sound : ∀ (a b : Attr), beqA a b = true → a = b := by
  have main : ∀ (n : Nat) (a b : Attr), sizeOf a ≤ n → beqA a b = true → a = b := by
    intro n
    induction n with
    | zero =>
      intro a b hs _
      exact absurd hs (by cases a <;> simp)
    | succ n ih =>
      intro a b hs h
      cases a <;> cases b <;> simp only [beqA] at h
      all_goals first
        | rfl
        | exact absurd h (by decide)
        | exact congrArg _ (eq_of_beq h)
        | (rename_i xs ys
           refine congrArg Attr.list (beqListA_sound xs (fun x hx y hxy => ih x y ?_ hxy) ys h)
           have hlt := List.sizeOf_lt_of_mem hx
           have hle : sizeOf (Attr.list xs) = 1 + sizeOf xs := by simp
           omega)
        | (rename_i ps qs
           refine congrArg Attr.dict (beqPairsA_sound ps (fun p hp y => ?_) qs h)
           have hlt := List.sizeOf_lt_of_mem hp
           have hle : sizeOf (Attr.dict ps) = 1 + sizeOf ps := by simp
           obtain ⟨pk, pv⟩ := p
           simp only at hlt ⊢
           have hsz : sizeOf (pk, pv) = 1 + sizeOf pk + sizeOf pv := by simp
           exact ⟨fun hb => ih pk y (by omega) hb, fun hb => ih pv y (by omega) hb⟩)
  exact fun a b => main (sizeOf a) a b (Nat.le_refl _)

theorem beqListA_refl (as : List Attr) (ih : ∀ x ∈ as, beqA x x = true) :
    beqListA as as = true := by
  induction as with
  | nil => rfl
  | cons a as ihl =>
    simp only [beqListA, Bool.and_eq_true]
    exact ⟨ih a (by simp), ihl (fun x hx => ih x (by simp [hx]))⟩

theorem beqPairsA_refl (ps : List (Attr × Attr))
    (ih : ∀ p ∈ ps, beqA p.1 p.1 = true ∧ beqA p.2 p.2 = true) :
    beqPairsA ps ps = true := by
  induction ps with
  | nil => rfl
  | cons p ps ihl =>
    obtain ⟨k, v⟩ := p
    simp only [beqPairsA, Bool.and_eq_true]
    exact ⟨⟨(ih (k, v) (by simp)).1, (ih (k, v) (by simp)).2⟩,
      ihl (fun x hx => ih x (by simp [hx]))⟩

theorem beqA_refl : ∀ (a : Attr), beqA a a = true := by
  have main : ∀ (n : Nat) (a : Attr), sizeOf a ≤ n → beqA a a = true := by
    intro n
    induction n with
    | zero =>
      intro a hs
      exact absurd hs (by cases a <;> simp)
    | succ n ih =>
      intro a hs
      cases a <;> simp only [beqA]
      all_goals first
        | rfl
        | exact beq_self_eq_true _
        | exact List.beq_refl _
        | (rename_i xs
           refine beqListA_refl xs (fun x hx => ih x ?_)
           have hlt := List.sizeOf_lt_of_mem hx
           have hle : sizeOf (Attr.list xs) = 1 + sizeOf xs := by simp
           omega)
        | (rename_i ps
           refine beqPairsA_refl ps (fun p hp => ?_)
           have hlt := List.sizeOf_lt_of_mem hp
           have hle : sizeOf (Attr.dict ps) = 1 + sizeOf ps := by simp
           obtain ⟨pk, pv⟩ := p
           simp only at hlt ⊢
           have hsz : sizeOf (pk, pv) = 1 + sizeOf pk + sizeOf pv := by simp
           exact ⟨ih pk (by omega), ih pv (by omega)⟩)
  exact fun a => main (sizeOf a) a (Nat.le_refl _)

instance : DecidableEq Attr := fun a b =>
  if h : beqA a b = true then isTrue (beqA_sound a b h)
  else isFalse (fun he => h (he ▸ beqA_refl a))

/-- `is_nil()`. -/
def isNilA : Attr → Bool
  | .nil => true
  | _ => false

/-- `to_string()` — returns the owned string buffer; only meaningful for
`Attr.string` (on any other kind the C code reads a reinterpreted union
member; those cases are never exercised by the theorems below and are
modelled by the empty string). -/
def toStringA : Attr → List Char
  | .string s => s
  | _ => []

/-- `to_int64()` (api_types.h, not under src/): the union payload read as a
signed 64-bit integer.  Faithful for integer kinds; other kinds reinterpret
unrelated union bytes and are modelled as 0 (never exercised below). -/
def toInt64A : Attr → Int
  | .int64 v => v
  | .uint64 v => if v < 2 ^ 63 then (v : Int) else (v : Int) - 2 ^ 64
  | _ => 0

/-- `to_uint64()` (api_types.h, not under src/): the union payload read as an
unsigned 64-bit integer (`u_.integer` cast).  Faithful for integer kinds;
other kinds are modelled as 0 (never exercised below). -/
def toUint64A : Attr → Nat
  | .int64 v => (v % (2 ^ 64 : Int)).toNat
  | .uint64 v => v
  | _ => 0

/-- `size()`: string length, byte count, element count, pair count; 0 for
scalars (every `make_*` for a scalar leaves `size_ = 0` after `attr_free`). -/
def sizeA : Attr → Nat
  | .string s => s.length
  | .data bs => bs.length
  | .list xs => xs.length
  | .dict ps => ps.length
  | _ => 0

/-! ## Encoder: `attribute_to_string` (attribute.cpp:391-467)

The scratch-buffer primitives `AutoBuffer::write_string`, `write_uint64`
and `write_byte` are declared in headers that are not under src/.
Modelled from the spec: `write_uint64` emits the unsigned decimal digits of
the value's 64-bit pattern, `write_byte` emits exactly two uppercase hex
digits, `write_string` appends raw characters. -/

/-- Decimal digit character for `d < 10`. -/
def digitChar (d : Nat) : Char := Char.ofNat (48 + d)

/-- Fuel-bounded digit expansion (structural so that proofs by evaluation
reduce; `n + 1` fuel always suffices since each step divides by 10). -/
def natToDecimalF : Nat → Nat → List Char
  | 0, _ => []
  | f + 1, n =>
    if n < 10 then [digitChar n]
    else natToDecimalF f (n / 10) ++ [digitChar (n % 10)]

/-- Modelled from the spec: `AutoBuffer::write_uint64` — the unsigned decimal
digits of the value, most significant first, no sign, no leading zeros. -/
def natToDecimal (n : Nat) : List Char := natToDecimalF (n + 1) n

/-- Uppercase hex digit character for `d < 16`. -/
def hexDigitChar (d : Nat) : Char :=
  if d < 10 then Char.ofNat (48 + d) else Char.ofNat (55 + d)

/-- Modelled from the spec: `AutoBuffer::write_byte` — exactly two uppercase
hex digits of the byte. -/
def byteHex (b : Nat) : List Char := [hexDigitChar (b / 16), hexDigitChar (b % 16)]

/-- The 64-bit pattern of a signed value, as `to_uint64()` returns it for an
integer attribute. -/
def toUnsigned64 (v : Int) : Nat := (v % (2 ^ 64 : Int)).toNat

/-- Modelled from the spec (iservice.h is not under src/): the recognized
service capability marker `IFACE_SERVICE`. -/
def ifaceService : List Char := "IService".data

mutual

/-- `attribute_to_string` (attribute.cpp:391-467): the exact text the encoder
appends for one attribute.  Float attributes are outside the embedding
(floating point); every other kind follows the source branch for it.
An `iface` node is rendered as the `{'Type':'IService','ModuleName':'…'}`
dict literal (attribute.cpp:447-456). -/
def encA : Attr → List Char
  | .nil => "None".data
  | .boolean b => if b then "true".data else "false".data
  | .int64 v => natToDecimal (toUnsigned64 v)
  | .uint64 v => natToDecimal v
  | .string s => '\'' :: (s ++ ['\''])
  | .data bs => '(' :: (encBytes bs ++ [')'])
  | .list xs => '[' :: (encElems xs ++ [']'])
  | .dict ps => '{' :: (encPairs ps ++ ['}'])
  | .iface m => '\x7b' :: ("'Type':'IService','ModuleName':'".data ++ m ++ ['\'', '\x7d'])

/-- Comma-separated byte encodings inside a `Data` token (attribute.cpp:439-445). -/
def encBytes : List Nat → List Char
  | [] => []
  | [b] => byteHex b
  | b :: bs => byteHex b ++ (',' :: encBytes bs)

/-- Comma-separated element encodings inside a `List` token (attribute.cpp:411-418). -/
def encElems : List Attr → List Char
  | [] => []
  | [x] => encA x
  | x :: xs => encA x ++ (',' :: encElems xs)

/-- Comma-separated `'key':value` pair encodings inside a `Dict` token
(attribute.cpp:425-435). -/
def encPairs : List (Attr × Attr) → List Char
  | [] => []
  | [(k, v)] => '\'' :: (toStringA k ++ ('\'' :: ':' :: encA v))
  | (k, v) :: ps => '\'' :: (toStringA k ++ ('\'' :: ':' :: encA v)) ++ (',' :: encPairs ps)

end

/-- Length of the encoded text of an attribute. -/
def encLen (v : Attr) : Nat := (encA v).length

/-! ## Decoder: `string_to_attribute` (attribute.cpp:469-607) -/

/-- The whitespace skipped by `skip_special_symbols` (attribute.cpp:469-475):
space, CR, LF, tab. -/
def isWS (c : Char) : Bool := c == ' ' || c == '\r' || c == '\n' || c == '\t'

/-- Fuel-bounded body of the whitespace-skipping loop. -/
def skipPosF : Nat → List Char → Nat → Nat
  | 0, _, p => p
  | f + 1, s, p => if isWS (charAt s p) then skipPosF f s (p + 1) else p

/-- `skip_special_symbols`: the position of the next non-whitespace
character.  Past the end of the input `charAt` yields NUL, which stops the
loop, so `length + 1 - p` fuel always suffices. -/
def skipPos (s : List Char) (p : Nat) : Nat := skipPosF (s.length + 1 - p) s p

/-- Fuel-bounded scan counting the characters before the closing quote or
NUL (the `while (*pcur != t1 && *pcur != '\0')` loop, attribute.cpp:486-489). -/
def scanStrF : Nat → List Char → Nat → Char → Nat
  | 0, _, _, _ => 0
  | f + 1, s, p, q =>
    if charAt s p = q ∨ charAt s p = nulC then 0 else scanStrF f s (p + 1) q + 1

/-- Number of content characters of a quoted string token starting after the
opening quote at `p`. -/
def scanStr (s : List Char) (p : Nat) (q : Char) : Nat := scanStrF (s.length + 1 - p) s p q

/-- The bytes copied by `buf.write_bin(&cfg[1], str_sz)`: `n` characters of
the input starting at index `i` (note the C code reads from `cfg + 1`, the
original argument, not from the whitespace-skipped cursor); reads past the
end yield NUL. -/
def readChars (s : List Char) (i n : Nat) : List Char :=
  (List.range n).map (fun k => charAt s (i + k))

/-- Character class of the numeric-literal collection loop
(attribute.cpp:597-601): decimal digits and hex letters of either case,
compared by character code. -/
def isNumRunChar (c : Char) : Bool :=
  (decide (48 ≤ c.toNat) && decide (c.toNat ≤ 57))
    || (decide (97 ≤ c.toNat) && decide (c.toNat ≤ 102))
    || (decide (65 ≤ c.toNat) && decide (c.toNat ≤ 70))

/-- Fuel-bounded length of the maximal run of numeric-literal characters. -/
def numRunF : Nat → List Char → Nat → Nat
  | 0, _, _ => 0
  | f + 1, s, p => if isNumRunChar (charAt s p) then numRunF f s (p + 1) + 1 else 0

/-- Length of the maximal numeric-literal run starting at `p` (NUL past the
end stops it, so `length + 1 - p` fuel suffices). -/
def numRun (s : List Char) (p : Nat) : Nat := numRunF (s.length + 1 - p) s p

/-- Numeric value of a digit character for radix `b ≤ 16`, as `strtoull`
accepts it; `none` when the character is not a digit of that radix. -/
def digVal (b : Nat) (c : Char) : Option Nat :=
  let v : Nat :=
    if 48 ≤ c.toNat ∧ c.toNat ≤ 57 then c.toNat - 48
    else if 97 ≤ c.toNat ∧ c.toNat ≤ 102 then c.toNat - 87
    else if 65 ≤ c.toNat ∧ c.toNat ≤ 70 then c.toNat - 55
    else 16
  if v < b then some v else none

/-- Accumulating radix-`b` parse that stops at the first non-digit. -/
def parseBaseF (b : Nat) : List Char → Nat → Nat
  | [], acc => acc
  | c :: cs, acc =>
    match digVal b c with
    | some v => parseBaseF b cs (acc * b + v)
    | none => acc

/-- Modelled from the spec: `strtoull(digits, NULL, 0)` (libc) — auto-radix
unsigned 64-bit parse: a `0x`/`0X` prefix selects hex, a leading `0` octal,
otherwise decimal; parsing stops at the first character invalid for the
radix and the result saturates at `2^64 - 1` on overflow.  (`charAt` past
the end is NUL, never `'0'`, so the empty string parses as 0.) -/
def strtoullBase (ds : List Char) : Nat :=
  if charAt ds 0 = '0' ∧ (charAt ds 1 = 'x' ∨ charAt ds 1 = 'X') then
    parseBaseF 16 (ds.drop 2) 0
  else if charAt ds 0 = '0' then parseBaseF 8 (ds.drop 1) 0
  else parseBaseF 10 ds 0

/-- The saturating 64-bit result of the auto-radix parse. -/
def strtoullM (ds : List Char) : Nat :=
  if strtoullBase ds < 2 ^ 64 then strtoullBase ds else 2 ^ 64 - 1

/-- The cast `int64_t t1 = strtoull(...)` (attribute.cpp:602): reinterpret
an unsigned 64-bit value as signed two's complement. -/
def toSigned64 (n : Nat) : Int := if n < 2 ^ 63 then (n : Int) else (n : Int) - 2 ^ 64

/-- One character of the Data hex loop (attribute.cpp:558-561): uppercase
hex letters map to 10..15, anything else goes through `*pcur - '0'` (for
characters below `'0'` the C value is negative; only uppercase-hex/digit
characters are exercised by the theorems below). -/
def hexNibble (c : Char) : Nat :=
  if 65 ≤ c.toNat ∧ c.toNat ≤ 70 then c.toNat - 55 else c.toNat - 48

/-- Index of the first dict pair whose key compares `strcmp`-equal to `k`
(the scan of `operator[](const char *)`, attribute.cpp:125-128). -/
def findKeyIdx : List (Attr × Attr) → List Char → Option Nat
  | [], _ => none
  | (kk, _) :: rest, k =>
    if toStringA kk = k then some 0 else (findKeyIdx rest k).map (· + 1)

/-- The auto-vivifying dict lookup `operator[](const char *key)`
(attribute.cpp:124-134): a linear scan by string equality; when the key is
absent the dict is grown by one pair `(key, Nil)`.  Returns the pair list
after the call and the index of the pair whose value the returned reference
denotes. -/
def dict_at_key (ps : List (Attr × Attr)) (k : List Char) : List (Attr × Attr) × Nat :=
  match findKeyIdx ps k with
  | some i => (ps, i)
  | none => (ps ++ [(.string k, .nil)], ps.length)

/-- `(*out)[key.to_string()] = new_value` (attribute.cpp:527): the
auto-vivifying lookup followed by copy-assignment — replace the value of
the first matching pair, or append a fresh `(key, value)` pair. -/
def dictAssign : List (Attr × Attr) → List Char → Attr → List (Attr × Attr)
  | [], k, v => [(.string k, v)]
  | (kk, vv) :: rest, k, v =>
    if toStringA kk = k then (kk, v) :: rest else (kk, vv) :: dictAssign rest k v

/-- Value of the first pair matching the key, or `Attr.nil` when absent
(the value a vivifying lookup would create and return). -/
def dictLookupOrNil : List (Attr × Attr) → List Char → Attr
  | [], _ => .nil
  | (kk, vv) :: rest, k => if toStringA kk = k then vv else dictLookupOrNil rest k

/-- `has_key` (attribute.cpp:331-339): true exactly when some pair's key
matches and that pair's value is not Nil. -/
def has_key (ps : List (Attr × Attr)) (k : List Char) : Bool :=
  ps.any (fun pr => toStringA pr.1 == k && !isNilA pr.2)

mutual

/-- `string_to_attribute` (attribute.cpp:477-607) over input `s`, reading
from position `pos`, with `out` the current contents of `*out` (the C
function writes through a pointer, and the `None` branch leaves the previous
value in place).  Returns the contents of `*out` after the call and the
returned cursor position.  `fuel` bounds loop iterations and recursive
calls of the C code (which can loop forever on some malformed inputs);
every theorem below supplies enough fuel for the parse it performs, and a
fuel-out step returns its state unchanged. -/
def s2a : Nat → List Char → Nat → Attr → Attr × Nat
  | 0, _, pos, out => (out, pos)
  | fuel + 1, s, pos, out =>
    let p := skipPos s pos
    let c := charAt s p
    if c = '\'' ∨ c = '"' then
      let strSz := scanStr s (p + 1) c
      (.string ((readChars s (pos + 1) strSz).takeWhile (fun ch => ch ≠ nulC)),
        p + 1 + strSz + 1)
    else if c = '[' then
      s2aList fuel s (skipPos s (p + 1)) [] .nil
    else if c = '{' then
      let r := s2aDict fuel s (skipPos s (p + 1)) [] .nil .nil
      if has_key r.1 "Type".data then
        if toStringA (dictLookupOrNil r.1 "Type".data) = ifaceService then
          (.iface (toStringA (dictLookupOrNil r.1 "ModuleName".data)), r.2)
        else (.dict r.1, r.2)
      else (.dict r.1, r.2)
    else if c = '(' then
      let r := s2aData fuel s (skipPos s (p + 1)) []
      (.data r.1, skipPos s (r.2 + 1))
    else
      let p2 := skipPos s p
      if charAt s p2 = 'N' ∧ charAt s (p2 + 1) = 'o' ∧ charAt s (p2 + 2) = 'n'
          ∧ charAt s (p2 + 3) = 'e' then
        (out, p2 + 4)
      else if charAt s p2 = 'f' ∧ charAt s (p2 + 1) = 'a' ∧ charAt s (p2 + 2) = 'l'
          ∧ charAt s (p2 + 3) = 's' ∧ charAt s (p2 + 4) = 'e' then
        (.boolean false, p2 + 5)
      else if charAt s p2 = 't' ∧ charAt s (p2 + 1) = 'r' ∧ charAt s (p2 + 2) = 'u'
          ∧ charAt s (p2 + 3) = 'e' then
        (.boolean true, p2 + 4)
      else
        let pref := charAt s p2 = '0' ∧ charAt s (p2 + 1) = 'x'
        let p3 := if pref then p2 + 2 else p2
        let n := numRun s p3
        let digits := (if pref then ['0', 'x'] else []) ++ readChars s p3 n
        (.int64 (toSigned64 (strtoullM digits)), p3 + n)

/-- The List-token element loop (attribute.cpp:498-510); `item` is the C
local `new_item`, which persists across iterations (the `None` branch of
`s2a` hands it back unchanged). -/
def s2aList : Nat → List Char → Nat → List Attr → Attr → Attr × Nat
  | 0, _, p, acc, _ => (.list acc, p)
  | fuel + 1, s, p, acc, item =>
    if charAt s p = ']' ∨ charAt s p = nulC then
      (.list acc, skipPos s (p + 1))
    else
      let r := s2a fuel s p item
      let p2 := skipPos s r.2
      let p3 := if charAt s p2 = ',' then skipPos s (p2 + 1) else p2
      s2aList fuel s p3 (acc ++ [r.1]) r.1

/-- The Dict-token pair loop (attribute.cpp:516-536); `key` and `val` are
the C locals `new_key`/`new_value`, persisting across iterations. -/
def s2aDict : Nat → List Char → Nat → List (Attr × Attr) → Attr → Attr →
    List (Attr × Attr) × Nat
  | 0, _, p, acc, _, _ => (acc, p)
  | fuel + 1, s, p, acc, key, val =>
    if charAt s p = '}' ∨ charAt s p = nulC then
      (acc, skipPos s (p + 1))
    else
      let rk := s2a fuel s p key
      let p2 := skipPos s rk.2
      let p3 := if charAt s p2 = ':' then p2 + 1 else p2
      let p4 := skipPos s p3
      let rv := s2a fuel s p4 val
      let acc2 := dictAssign acc (toStringA rk.1) rv.1
      let p6 := skipPos s rv.2
      let p7 := if charAt s p6 = ',' then skipPos s (p6 + 1) else p6
      s2aDict fuel s p7 acc2 rk.1 rv.1

/-- The Data-token hex loop (attribute.cpp:555-572): each iteration reads
exactly two characters unconditionally — there is no end-of-input check
inside the two-character read — then skips whitespace and one optional
comma. -/
def s2aData : Nat → List Char → Nat → List Nat → List Nat × Nat
  | 0, _, p, acc => (acc, p)
  | fuel + 1, s, p, acc =>
    if charAt s p = ')' ∨ charAt s p = nulC then
      (acc, p)
    else
      let b := (hexNibble (charAt s p) * 16 + hexNibble (charAt s (p + 1))) % 256
      let p2 := skipPos s (p + 2)
      let p3 := if charAt s p2 = ',' then skipPos s (p2 + 1) else p2
      s2aData fuel s p3 (acc ++ [b])

end

/-! ## List/Dict mutators (attribute.cpp:207-265) -/

/-- Swap two slots of a flat attribute array: the body of `swap_list_item`
(attribute.cpp:252-265) exchanges the full kind/size/payload of slots `n`
and `m`; the code's `n == m` early return makes that a no-op. -/
def swapSlots (l : List Attr) (n m : Nat) : List Attr :=
  if n = m then l else (l.set n (l.getD m .nil)).set m (l.getD n .nil)

/-- The dict storage viewed as the flat `AttributeType` array aliased by
`u_.list`: each `AttributePairType` lays out `key_` then `value_`, two
consecutive `AttributeType` slots. -/
def flatPairs : List (Attr × Attr) → List Attr
  | [] => []
  | (k, v) :: ps => k :: v :: flatPairs ps

/-- Rebuild dict pairs from the flat slot view. -/
def unflatPairs : List Attr → List (Attr × Attr)
  | a :: b :: rest => (a, b) :: unflatPairs rest
  | _ => []

/-- `swap_list_item(n, m)` (attribute.cpp:252-265) on an arbitrary
attribute: on a List it swaps two elements; on a Dict the code indexes the
union member `u_.list`, which aliases the pair array, so slot `i` is the
key (even `i`) or the value (odd `i`) of pair `i / 2`.  On any other kind
the accessed union member is not an attribute array at all; `partition`
aborts before ever swapping there, and the model leaves such values
unchanged. -/
def swap_list_item (a : Attr) (n m : Nat) : Attr :=
  if n = m then a
  else
    match a with
    | .list xs => .list (swapSlots xs n m)
    | .dict ps => .dict (unflatPairs (swapSlots (flatPairs ps) n m))
    | other => other

/-- `remove_from_list(idx)` (attribute.cpp:230-242) on a List value with
elements `l`: an out-of-range index is reported and leaves the value
unchanged; otherwise the element is released (`attr_free`, leaving an empty
scalar slot, modelled `.nil` — it is dropped or moved past the new size
either way), then — unless it was the last element — swapped with the last
element, and `size` is decremented. -/
def remove_from_list (l : List Attr) (idx : Nat) : List Attr :=
  if idx ≥ l.length then l
  else
    let l1 := l.set idx .nil
    if idx = l.length - 1 then l1.take (l.length - 1)
    else (swapSlots l1 idx (l.length - 1)).take (l.length - 1)

/-- `trim_list(start, end)` (attribute.cpp:244-250): the loop
`for (i = start; i < size_ - end; i++) { list[start+i].attr_free();
list[start+i] = list[end+i]; }` followed by `size_ -= (end - start)`.
The loop reads each source slot before any iteration overwrites it, so the
assignments read original elements; the final `take` models the size
decrement.  (Faithful for `end ≤ size`; for `end > size` the C unsigned
subtraction wraps.) -/
def trim_list (l : List Attr) (start fin : Nat) : List Attr :=
  let stepped := (List.range' start (l.length - fin - start)).foldl
    (fun acc i => acc.set (start + i) (acc.getD (fin + i) .nil)) l
  stepped.take (l.length - (fin - start))

/-- `operator()(unsigned idx)` byte access (attribute.cpp:136-145) for a
Data value with bytes `bytes` (`size()` is `bytes.length`; for `size ≤ 8`
the bytes live inline in the union, otherwise in the heap buffer — both
storages hold this same byte sequence).  Result: whether the out-of-range
diagnostic fired, and the byte read — the guard is `idx > size()`, so
`idx = size()` takes the unchecked branch and reads storage slot `size`,
one past the payload, modelled `none`; the reported branch dereferences
`u_.data[0]`, modelled `head?`. -/
def byte_at (bytes : List Nat) (idx : Nat) : Bool × Option Nat :=
  if idx > bytes.length then (true, bytes.head?)
  else (false, bytes[idx]?)

/-! ## Ordering: `partition`, `quicksort`, `sort` (attribute.cpp:268-329) -/

/-- `operator[](unsigned)` element read (attribute.cpp:100-109): List
element, Dict pair value, otherwise the reported shared sentinel
`NilAttribute`.  (An out-of-range List/Dict index reads zero-filled chunk
storage in C; the sort only indexes within `size`, so the `getD` default is
never exercised by the theorems.) -/
def readElem (a : Attr) (j : Nat) : Attr :=
  match a with
  | .list xs => xs.getD j .nil
  | .dict ps => (ps.getD j (.nil, .nil)).2
  | _ => .nil

/-- `strcmp(a, b) <= 0` on NUL-terminated strings: lexicographic comparison
by character code; a string compares below its proper extensions (the
terminating NUL is below every string character). -/
def strcmpLe : List Char → List Char → Bool
  | [], _ => true
  | _ :: _, [] => false
  | a :: s, b :: t =>
    if a.toNat < b.toNat then true
    else if b.toNat < a.toNat then false
    else strcmpLe s t

/-- The comparison block of `partition` (attribute.cpp:273-303): whether
`item` belongs to the lower side (`do_swap`); `none` models the
unsupported-kind abort (`return i + 1` before the loop finishes).  A
nested-List item compares by its `lst_idx` sub-element; when that
sub-element has none of the three comparable kinds, `do_swap` simply stays
false (no abort). -/
def cmpLeA (item pivot : Attr) (lstIdx : Nat) : Option Bool :=
  match item with
  | .string s => some (strcmpLe s (toStringA pivot))
  | .int64 v => some (decide (v ≤ toInt64A pivot))
  | .uint64 v => some (decide (v ≤ toUint64A pivot))
  | .list xs =>
    some (match readElem (.list xs) lstIdx with
      | .string s => strcmpLe s (toStringA (readElem pivot lstIdx))
      | .int64 v => decide (v ≤ toInt64A (readElem pivot lstIdx))
      | .uint64 v => decide (v ≤ toUint64A (readElem pivot lstIdx))
      | _ => false)
  | _ => none

/-- The `for (j = lo; j < hi; j++)` loop of `partition`
(attribute.cpp:271-309).  `i1` tracks `i + 1` (the C `i` starts at
`lo - 1`; tracking `i + 1` keeps the index a `Nat`; on `do_swap` the code
increments `i` and swaps positions `i` and `j`, i.e. swaps at `i1` and then
increments `i1`).  Returns the array, the final `i + 1`, and whether the
loop ran to completion (`false` = unsupported-kind early return). -/
def pLoopF : Nat → Attr → Nat → Nat → Nat → Nat → Attr × Nat × Bool
  | 0, A, i1, _, _, _ => (A, i1, true)
  | rem + 1, A, i1, j, hi, lstIdx =>
    match cmpLeA (readElem A j) (readElem A hi) lstIdx with
    | none => (A, i1, false)
    | some true => pLoopF rem (swap_list_item A i1 j) (i1 + 1) (j + 1) hi lstIdx
    | some false => pLoopF rem A i1 (j + 1) hi lstIdx

/-- The partition loop with its counter: the loop runs while `j < hi`,
i.e. exactly `hi - j` more iterations, which `pLoopF` tracks structurally
(`hi - (j+1) = (hi - j) - 1` whenever `j < hi`). -/
def pLoop (A : Attr) (i1 j hi lstIdx : Nat) : Attr × Nat × Bool :=
  pLoopF (hi - j) A i1 j hi lstIdx

/-- `partition(A, lo, hi, lst_idx)` (attribute.cpp:268-312): Lomuto
partition around the element at `hi`; on normal completion the pivot is
swapped into position `i + 1`, which is returned; the unsupported-kind
early return yields `i + 1` without that final swap. -/
def partitionM (A : Attr) (lo hi lstIdx : Nat) : Attr × Nat :=
  match pLoop A lo lo hi lstIdx with
  | (A1, i1, true) => (swap_list_item A1 i1 hi, i1)
  | (A1, i1, false) => (A1, i1)

/-- `quicksort(A, lo, hi, lst_idx)` (attribute.cpp:314-321) with explicit
fuel for the C recursion; `sort` supplies `size()` fuel, which bounds the
recursion depth of every execution (each nested call strictly shrinks
`hi - lo`).  The C `lo`/`hi` are `int`; with `Nat` truncation `p - 1`
differs only when `p = 0`, where `lo = 0` and both readings hit the
`lo >= hi` base case. -/
def quicksortF : Nat → Attr → Nat → Nat → Nat → Attr
  | 0, A, _, _, _ => A
  | fuel + 1, A, lo, hi, lstIdx =>
    if lo ≥ hi then A
    else
      let r := partitionM A lo hi lstIdx
      quicksortF fuel (quicksortF fuel r.1 lo (r.2 - 1) lstIdx) (r.2 + 1) hi lstIdx

/-- `AttributeType::sort(idx)` (attribute.cpp:323-329): when the attribute
is not a List an error is reported — but there is no early return, and the
code falls through to `quicksort(this, 0, size() - 1, idx)` regardless of
kind. -/
def sortA (a : Attr) (lstIdx : Nat) : Attr :=
  quicksortF (sizeA a) a 0 (sizeA a - 1) lstIdx

/-! ## Constructibility and the round-trippable class -/

/-- A constructible C string: byte characters, none of them NUL. -/
def strOk (s : List Char) : Bool :=
  s.all (fun c => decide (0 < c.toNat) && decide (c.toNat < 256))

mutual

/-- Constructible attribute values: strings (and dict keys) are NUL-free
byte strings, data bytes are `< 256`, integers fit their 64-bit ranges,
dict keys are `Attr.string` values (every constructor in attribute.cpp
builds keys with `make_string`). -/
def wfA : Attr → Bool
  | .nil => true
  | .boolean _ => true
  | .int64 v => decide (-(2 ^ 63) ≤ v) && decide (v < 2 ^ 63)
  | .uint64 v => decide (v < 2 ^ 64)
  | .string s => strOk s
  | .data bs => bs.all (fun b => decide (b < 256))
  | .list xs => wfListA xs
  | .dict ps => wfPairsA ps
  | .iface m => strOk m

/-- All elements constructible. -/
def wfListA : List Attr → Bool
  | [] => true
  | x :: xs => wfA x && wfListA xs

/-- All pairs constructible, keys being proper strings. -/
def wfPairsA : List (Attr × Attr) → Bool
  | [] => true
  | (k, v) :: ps =>
    (match k with
      | .string s => strOk s
      | _ => false) && wfA v && wfPairsA ps

end

/-- Nil elements only as an initial run: once a non-Nil element appears, no
later element is Nil.  (The decoder's `None` branch leaves the output
attribute unchanged, so inside a List/Dict token a `None` after a decoded
element captures that element; an initial run of `None`s reads the
still-default Nil locals.) -/
def nilsPrefix : List Attr → Bool
  | [] => true
  | a :: l => if isNilA a then nilsPrefix l else l.all (fun x => !isNilA x)

/-- The key strings of a dict, in order. -/
def keyStrs (ps : List (Attr × Attr)) : List (List Char) :=
  ps.map (fun p => toStringA p.1)

/-- Whether a string contains the single-quote delimiter. -/
def hasQuote : List Char → Bool
  | [] => false
  | c :: t => if c = '\'' then true else hasQuote t

mutual

/-- The round-trippable class: values whose encoding decodes back exactly.
Excluded (each provably breaks the round trip): `uint64` (decodes with
signed kind), `iface` (excluded by the claim), quote characters in strings
or keys (the string token has no escaping), duplicate dict keys (decode
collapses them), a non-Nil `"Type"` entry (triggers the service-reference
rewrite), and Nil elements after a non-Nil one in a List/Dict (the `None`
branch leaves the decoder's output register unchanged). -/
def rtA : Attr → Bool
  | .nil => true
  | .boolean _ => true
  | .int64 _ => true
  | .uint64 _ => false
  | .string s => !hasQuote s
  | .data _ => true
  | .list xs => rtListA xs && nilsPrefix xs
  | .dict ps =>
    rtPairsA ps && ps.all (fun p => !hasQuote (toStringA p.1))
      && decide (keyStrs ps).Nodup && !has_key ps "Type".data
      && nilsPrefix (ps.map Prod.snd)
  | .iface _ => false

/-- All elements round-trippable. -/
def rtListA : List Attr → Bool
  | [] => true
  | x :: xs => rtA x && rtListA xs

/-- All pair values round-trippable. -/
def rtPairsA : List (Attr × Attr) → Bool
  | [] => true
  | (_, v) :: ps => rtA v && rtPairsA ps

end

/-! ## Basic facts about whitespace skipping -/

theorem charAt_of_le (s : List Char) (p : Nat) (h : s.length ≤ p) : charAt s p = nulC := by
  simp [charAt, List.getD_eq_getElem?_getD, List.getElem?_eq_none h]

theorem skipPosF_notWS : ∀ (f : Nat) (s : List Char) (p : Nat), s.length + 1 - p ≤ f →
    isWS (charAt s (skipPosF f s p)) = false := by
  intro f
  induction f with
  | zero =>
    intro s p h
    simp only [skipPosF]
    rw [charAt_of_le s p (by omega)]
    decide
  | succ f ih =>
    intro s p h
    by_cases hw : isWS (charAt s p) = true
    · simp only [skipPosF, hw, if_true]
      exact ih s (p + 1) (by omega)
    · simp only [skipPosF, hw, if_false]
      exact Bool.not_eq_true _ |>.mp hw

theorem skipPos_notWS (s : List Char) (p : Nat) : isWS (charAt s (skipPos s p)) = false :=
  skipPosF_notWS _ s p (Nat.le_refl _)

theorem skipPos_eq (s : List Char) (p : Nat) (h : isWS (charAt s p) = false) :
    skipPos s p = p := by
  unfold skipPos
  cases hf : s.length + 1 - p with
  | zero => rfl
  | succ f => simp [skipPosF, h]

theorem skipPos_idem (s : List Char) (p : Nat) : skipPos s (skipPos s p) = skipPos s p :=
  skipPos_eq s _ (skipPos_notWS s p)

/-! ## Claim C2 — decoding a `None` token -/

/-- C2, counterexample: the `None` branch of `string_to_attribute`
(attribute.cpp:578-580) advances past the four characters but never writes
to `*out`; decoding the input `None` into an attribute currently holding
`Boolean true` returns that Boolean unchanged, not a Nil. -/
theorem c2_counterexample :
    s2a 4 "None".data 0 (.boolean true) = (.boolean true, 4)
    ∧ Attr.boolean true ≠ Attr.nil := by decide

/-- Decoding a `None` token: the branch advances four characters and leaves
the output attribute unchanged (attribute.cpp:578-580 writes nothing). -/
theorem decode_none_token (s : List Char) (pos : Nat) (out : Attr) (fuel : Nat)
    (hfuel : 1 ≤ fuel)
    (hN : charAt s (skipPos s pos) = 'N')
    (ho : charAt s (skipPos s pos + 1) = 'o')
    (hn : charAt s (skipPos s pos + 2) = 'n')
    (he : charAt s (skipPos s pos + 3) = 'e') :
    s2a fuel s pos out = (out, skipPos s pos + 4) := by
  obtain ⟨f, rfl⟩ : ∃ f, fuel = f + 1 := ⟨fuel - 1, by omega⟩
  simp only [s2a, skipPos_idem, hN, ho, hn, he]
  simp +decide

/-- C2 (amended): for every input whose next token after whitespace is the
four characters `None`, the decoder advances the position past those four
characters and leaves the output attribute unchanged — so it yields a value
of kind Nil exactly when decoding starts from a Nil output, as a fresh
top-level decode does. -/
theorem c2_decode_none (s : List Char) (pos : Nat) (out : Attr) (fuel : Nat)
    (hfuel : 1 ≤ fuel)
    (hN : charAt s (skipPos s pos) = 'N')
    (ho : charAt s (skipPos s pos + 1) = 'o')
    (hn : charAt s (skipPos s pos + 2) = 'n')
    (he : charAt s (skipPos s pos + 3) = 'e') :
    s2a fuel s pos out = (out, skipPos s pos + 4) :=
  decode_none_token s pos out fuel hfuel hN ho hn he

/-- C2, witness: decoding `" None"` from a default-constructed (Nil) output
yields Nil and the position one past the token. -/
theorem c2_decode_none_wit : s2a 5 " None".data 0 Attr.nil = (Attr.nil, 5) := by
  have h := c2_decode_none " None".data 0 Attr.nil 5 (by decide) (by decide) (by decide)
    (by decide) (by decide)
  rw [h]
  decide

/-! ## Claim C3 — `sort` on a non-List attribute -/

/-- C3: `sort` on a non-List attribute prints the diagnostic but has no
early return (attribute.cpp:323-329) and falls through to
`quicksort(this, 0, size() - 1, idx)`.  For a Dict of two pairs with keys
`a`, `b` and integer values `2`, `1`, the partition compares the pair
values through `operator[]` but swaps through the reinterpreted `u_.list`
view, exchanging the key and the value of the first pair — the attribute is
mutated, not left unchanged. -/
theorem c3_sort_falls_through_on_dict :
    sortA (.dict [(.string "a".data, .int64 2), (.string "b".data, .int64 1)]) 0
      = .dict [(.int64 2, .string "a".data), (.string "b".data, .int64 1)]
    ∧ Attr.dict [(.int64 2, .string "a".data), (.string "b".data, .int64 1)]
      ≠ .dict [(.string "a".data, .int64 2), (.string "b".data, .int64 1)] := by decide

/-! ## Claim C4 — `trim_list` -/

/-- C4: the shifting loop of `trim_list` (attribute.cpp:244-250) starts its
counter at `start` instead of `0`, so positions `start ≤ p < 2·start` keep
their old elements.  Removing `[1, 3)` from the five-element list
`[0, 1, 2, 3, 4]` yields `[0, 1, 4]` — the stale element `1` survives —
whereas removing the index range `[1, 3)` order-preservingly would yield
`[0, 3, 4]`.  The size does decrease by `end - start`. -/
theorem c4_trim_list_stale_shift :
    trim_list [Attr.int64 0, .int64 1, .int64 2, .int64 3, .int64 4] 1 3
      = [Attr.int64 0, .int64 1, .int64 4]
    ∧ [Attr.int64 0, .int64 1, .int64 4] ≠ [Attr.int64 0, .int64 3, .int64 4] := by decide

/-! ## Claim C5 — Data byte access -/

/-- C5: the byte accessor's guard is `idx > size()` instead of
`idx >= size()` (attribute.cpp:137), so for a 3-byte Data value the
out-of-range index 3 is not reported and reads storage slot 3, one past the
payload (`none`), while index 4 takes the documented report-and-return-
first-byte path and index 1 reads the payload byte. -/
theorem c5_byte_at_boundary_unchecked :
    byte_at [1, 171, 255] 3 = (false, none)
    ∧ byte_at [1, 171, 255] 4 = (true, some 1)
    ∧ byte_at [1, 171, 255] 1 = (false, some 171) := by decide

/-! ## Claim C9 — the Data-token hex loop overruns truncated input -/

/-- C9: inside a Data token the two-character hex read advances
unconditionally (attribute.cpp:557-564), so decoding the truncated input
`"(A"` (length 2, NUL terminator at index 2) returns cursor position 4 —
past the terminating NUL — after reading the characters at indices 1 and 2
as a hex pair. -/
theorem c9_truncated_data_reads_past_end :
    ("(A".data).length = 2
    ∧ (s2a 10 "(A".data 0 Attr.nil).2 = 4
    ∧ ("(A".data).length + 1 < (s2a 10 "(A".data 0 Attr.nil).2 := by decide

/-! ## Claim C6 — swap-remove -/

theorem take_set_of_le {α : Type} (l : List α) (m n : Nat) (a : α) (h : n ≤ m) :
    (l.set m a).take n = l.take n := by
  rw [List.set_take]
  apply List.set_eq_of_length_le
  simp only [List.length_take]
  omega

theorem getD_set_ne {α : Type} (l : List α) (i j : Nat) (a d : α) (h : i ≠ j) :
    (l.set i a).getD j d = l.getD j d := by
  simp [List.getD_eq_getElem?_getD, List.getElem?_set_ne h]

theorem swapSlots_length (l : List Attr) (n m : Nat) :
    (swapSlots l n m).length = l.length := by
  unfold swapSlots
  by_cases h : n = m <;> simp [h]

/-- C6: `remove_from_list` on a valid index releases element `i`; when `i`
is not the last index, the former last element moves into position `i`,
every other surviving element stays in place, and the size drops by one;
removing the last index just drops it, preserving the order of the rest. -/
theorem c6_remove_from_list (l : List Attr) (i : Nat)
    (h1 : 1 ≤ l.length) (h2 : i < l.length) :
    (remove_from_list l i).length = l.length - 1
    ∧ (i ≠ l.length - 1 →
        remove_from_list l i
          = (l.set i (l.getD (l.length - 1) .nil)).take (l.length - 1))
    ∧ (i = l.length - 1 → remove_from_list l i = l.take (l.length - 1)) := by
  unfold remove_from_list
  rw [if_neg (by omega)]
  by_cases hlast : i = l.length - 1
  · rw [if_pos hlast]
    refine ⟨?_, fun hne => absurd hlast hne, fun _ => ?_⟩
    · simp only [List.length_take, List.length_set]
      omega
    · subst hlast
      exact take_set_of_le l _ _ _ (Nat.le_refl _)
  · rw [if_neg hlast]
    refine ⟨?_, fun _ => ?_, fun heq => absurd heq hlast⟩
    · simp only [List.length_take, swapSlots_length, List.length_set]
      omega
    · unfold swapSlots
      rw [if_neg hlast]
      rw [getD_set_ne l i (l.length - 1) Attr.nil Attr.nil hlast]
      rw [List.set_set]
      exact take_set_of_le _ _ _ _ (Nat.le_refl _)

/-- C6, witness: removing index 1 of a four-element list moves the last
element into position 1 and drops the size to three. -/
theorem c6_remove_from_list_wit :
    (remove_from_list [Attr.int64 0, .int64 1, .int64 2, .int64 3] 1).length = 4 - 1
    ∧ (1 ≠ 4 - 1 →
        remove_from_list [Attr.int64 0, .int64 1, .int64 2, .int64 3] 1
          = (([Attr.int64 0, .int64 1, .int64 2, .int64 3].set 1
              ([Attr.int64 0, .int64 1, .int64 2, .int64 3].getD (4 - 1) .nil)).take (4 - 1)))
    ∧ (1 = 4 - 1 →
        remove_from_list [Attr.int64 0, .int64 1, .int64 2, .int64 3] 1
          = [Attr.int64 0, .int64 1, .int64 2, .int64 3].take (4 - 1)) := by
  have h := c6_remove_from_list [Attr.int64 0, .int64 1, .int64 2, .int64 3] 1
    (by decide) (by decide)
  simpa using h

/-! ## Claim C7 — auto-vivifying dict lookup -/

theorem findKeyIdx_eq_none_iff (ps : List (Attr × Attr)) (k : List Char) :
    findKeyIdx ps k = none ↔ ∀ pr ∈ ps, toStringA pr.1 ≠ k := by
  induction ps with
  | nil => simp [findKeyIdx]
  | cons p ps ih =>
    obtain ⟨kk, vv⟩ := p
    by_cases h : toStringA kk = k
    · simp [findKeyIdx, h]
    · simp [findKeyIdx, h, Option.map_eq_none', ih]

theorem findKeyIdx_append_fresh (ps : List (Attr × Attr)) (k : List Char) (v : Attr)
    (h : ∀ pr ∈ ps, toStringA pr.1 ≠ k) :
    findKeyIdx (ps ++ [(.string k, v)]) k = some ps.length := by
  induction ps with
  | nil => simp [findKeyIdx, toStringA]
  | cons p ps ih =>
    obtain ⟨kk, vv⟩ := p
    have hne : toStringA kk ≠ k := h (kk, vv) (by simp)
    have hstep : findKeyIdx (((kk, vv) :: ps) ++ [(.string k, v)]) k
        = (findKeyIdx (ps ++ [(.string k, v)]) k).map (· + 1) := by
      simp [findKeyIdx, hne]
    rw [hstep, ih (fun pr hpr => h pr (by simp [hpr]))]
    simp

/-- C7: looking up an absent key auto-vivifies — the dict grows by exactly
one pair, the returned reference denotes the new pair at the old size, that
pair's value is Nil, and a second lookup of the same key returns the same
element without growing the dict again. -/
theorem c7_dict_at_key (ps : List (Attr × Attr)) (k : List Char)
    (habs : ∀ pr ∈ ps, toStringA pr.1 ≠ k) :
    (dict_at_key ps k).1.length = ps.length + 1
    ∧ (dict_at_key ps k).2 = ps.length
    ∧ ((dict_at_key ps k).1.getD (dict_at_key ps k).2 (.nil, .nil)).2 = .nil
    ∧ dict_at_key (dict_at_key ps k).1 k = ((dict_at_key ps k).1, (dict_at_key ps k).2) := by
  have hnone : findKeyIdx ps k = none := (findKeyIdx_eq_none_iff ps k).mpr habs
  have h1 : dict_at_key ps k = (ps ++ [(.string k, .nil)], ps.length) := by
    unfold dict_at_key
    rw [hnone]
  rw [h1]
  refine ⟨by simp, rfl, ?_, ?_⟩
  · simp [List.getD_eq_getElem?_getD, List.getElem?_append_right (Nat.le_refl ps.length)]
  · unfold dict_at_key
    rw [findKeyIdx_append_fresh ps k .nil habs]

/-- C7, witness: vivifying lookup of `"x"` in a one-pair dict lacking it. -/
theorem c7_dict_at_key_wit :
    (dict_at_key [(.string "a".data, .int64 1)] "x".data).1.length = 1 + 1
    ∧ (dict_at_key [(.string "a".data, .int64 1)] "x".data).2 = 1
    ∧ ((dict_at_key [(.string "a".data, .int64 1)] "x".data).1.getD
        (dict_at_key [(.string "a".data, .int64 1)] "x".data).2 (.nil, .nil)).2 = .nil
    ∧ dict_at_key (dict_at_key [(.string "a".data, .int64 1)] "x".data).1 "x".data
        = ((dict_at_key [(.string "a".data, .int64 1)] "x".data).1,
           (dict_at_key [(.string "a".data, .int64 1)] "x".data).2) := by
  have h := c7_dict_at_key [(.string "a".data, .int64 1)] "x".data (by decide)
  simpa using h

/-! ## Claim C10 — `has_key` ignores Nil-valued pairs -/

theorem isNilA_iff (a : Attr) : isNilA a = true ↔ a = .nil := by
  cases a <;> simp [isNilA]

/-- C10: `has_key` is true exactly when some pair's key matches and its
value is not Nil; in particular, a pair just created by the auto-vivifying
lookup (value Nil) is reported absent. -/
theorem c10_has_key (ps : List (Attr × Attr)) (k : List Char) :
    (has_key ps k = true ↔ ∃ pr ∈ ps, toStringA pr.1 = k ∧ pr.2 ≠ .nil)
    ∧ (findKeyIdx ps k = none → has_key (dict_at_key ps k).1 k = false) := by
  constructor
  · simp only [has_key, List.any_eq_true, Bool.and_eq_true, beq_iff_eq,
      Bool.not_eq_true']
    constructor
    · rintro ⟨pr, hmem, hk, hnil⟩
      refine ⟨pr, hmem, hk, ?_⟩
      intro he
      rw [he] at hnil
      simp [isNilA] at hnil
    · rintro ⟨pr, hmem, hk, hnil⟩
      refine ⟨pr, hmem, hk, ?_⟩
      cases hni : isNilA pr.2
      · rfl
      · exact absurd ((isNilA_iff pr.2).mp hni) hnil
  · intro hnone
    unfold dict_at_key
    rw [hnone]
    simp only [has_key, List.any_append, Bool.or_eq_false_iff]
    constructor
    · have habs := (findKeyIdx_eq_none_iff ps k).mp hnone
      rw [List.any_eq_false]
      intro pr hpr
      simp [habs pr hpr]
    · simp [toStringA, isNilA]

/-- C10, witness: a dict whose only `"x"` pair was vivified (Nil value)
reports the key absent, while a non-Nil pair reports present. -/
theorem c10_has_key_wit :
    (has_key [(.string "x".data, .nil)] "x".data = true ↔
      ∃ pr ∈ [((Attr.string "x".data), Attr.nil)], toStringA pr.1 = "x".data ∧ pr.2 ≠ .nil)
    ∧ (findKeyIdx [(.string "x".data, .nil)] "x".data = none →
        has_key (dict_at_key [(.string "x".data, .nil)] "x".data).1 "x".data = false) :=
  c10_has_key [(.string "x".data, .nil)] "x".data

/-! ## Claim C8 — sort correctness on homogeneous lists

Infrastructure: element reads (`getE`), facts about `swapSlots`, and the
comparison order on each homogeneous element class. -/

/-- Element `q` of a list of attributes (the in-range reads of the sort). -/
def getE (l : List Attr) (q : Nat) : Attr := l.getD q Attr.nil

theorem getE_eq_getElem (l : List Attr) (q : Nat) (h : q < l.length) :
    getE l q = l[q] := by
  simp [getE, List.getD_eq_getElem?_getD, List.getElem?_eq_getElem h]

theorem getE_mem (l : List Attr) (q : Nat) (h : q < l.length) : getE l q ∈ l := by
  rw [getE_eq_getElem l q h]
  exact List.getElem_mem h

theorem getE_set_self (l : List Attr) (q : Nat) (a : Attr) (h : q < l.length) :
    getE (l.set q a) q = a := by
  simp [getE, List.getD_eq_getElem?_getD, List.getElem?_set_self h]

theorem getE_set_ne (l : List Attr) (i q : Nat) (a : Attr) (h : i ≠ q) :
    getE (l.set i a) q = getE l q := by
  simp [getE, List.getD_eq_getElem?_getD, List.getElem?_set_ne h]

theorem getE_cons_succ (a : Attr) (l : List Attr) (q : Nat) :
    getE (a :: l) (q + 1) = getE l q := by
  simp [getE]

theorem swapSlots_getE_fst (l : List Attr) (n m : Nat)
    (hn : n < l.length) (hm : m < l.length) :
    getE (swapSlots l n m) n = getE l m := by
  unfold swapSlots
  by_cases h : n = m
  · subst h; simp
  · rw [if_neg h, getE_set_ne _ m n _ (fun he => h he.symm)]
    exact getE_set_self l n _ hn

theorem swapSlots_getE_snd (l : List Attr) (n m : Nat)
    (hn : n < l.length) (hm : m < l.length) :
    getE (swapSlots l n m) m = getE l n := by
  unfold swapSlots
  by_cases h : n = m
  · subst h; simp
  · rw [if_neg h]
    exact getE_set_self _ m _ (by simpa using hm)

theorem swapSlots_getE_other (l : List Attr) (n m q : Nat)
    (hqn : q ≠ n) (hqm : q ≠ m) :
    getE (swapSlots l n m) q = getE l q := by
  unfold swapSlots
  by_cases h : n = m
  · rw [if_pos h]
  · rw [if_neg h, getE_set_ne _ m q _ (fun he => hqm he.symm),
      getE_set_ne _ n q _ (fun he => hqn he.symm)]

theorem set_getE_cons_perm :
    ∀ (t : List Attr) (j : Nat) (x : Attr), j < t.length →
      (getE t j :: t.set j x).Perm (x :: t) := by
  intro t
  induction t with
  | nil => intro j x h; simp at h
  | cons y t ih =>
    intro j x h
    cases j with
    | zero =>
      simp only [getE, List.getD_cons_zero, List.set_cons_zero]
      exact List.Perm.swap x y t
    | succ k =>
      simp only [getE_cons_succ, List.set_cons_succ]
      have hk : k < t.length := by simp at h; omega
      have h1 : (getE t k :: y :: t.set k x).Perm (y :: getE t k :: t.set k x) :=
        List.Perm.swap y (getE t k) (t.set k x)
      have h2 : (y :: getE t k :: t.set k x).Perm (y :: x :: t) := (ih k x hk).cons y
      have h3 : (y :: x :: t).Perm (x :: y :: t) := List.Perm.swap x y t
      exact h1.trans (h2.trans h3)

theorem swapSlots_perm :
    ∀ (l : List Attr) (n m : Nat), n < l.length → m < l.length →
      (swapSlots l n m).Perm l := by
  intro l
  induction l with
  | nil => intro n m hn _; simp at hn
  | cons x t ih =>
    intro n m hn hm
    by_cases hnm : n = m
    · unfold swapSlots
      rw [if_pos hnm]
    · cases n with
      | zero =>
        cases m with
        | zero => exact absurd rfl hnm
        | succ j =>
          have hj : j < t.length := by simp at hm; omega
          unfold swapSlots
          rw [if_neg hnm]
          simp only [getE] at *
          simp only [List.getD_cons_succ, List.getD_cons_zero, List.set_cons_zero,
            List.set_cons_succ]
          exact set_getE_cons_perm t j x hj
      | succ i =>
        cases m with
        | zero =>
          have hi : i < t.length := by simp at hn; omega
          unfold swapSlots
          rw [if_neg hnm]
          simp only [List.getD_cons_succ, List.getD_cons_zero, List.set_cons_succ,
            List.set_cons_zero]
          exact set_getE_cons_perm t i x hi
        | succ j =>
          have hij : i ≠ j := fun he => hnm (by rw [he])
          have hi : i < t.length := by simp at hn; omega
          have hj : j < t.length := by simp at hm; omega
          have : swapSlots (x :: t) (i + 1) (j + 1) = x :: swapSlots t i j := by
            unfold swapSlots
            rw [if_neg hnm, if_neg hij]
            simp [List.getD_cons_succ, List.set_cons_succ]
          rw [this]
          exact (ih i j hi hj).cons x

/-- The three comparable element classes of the sort (spec §4.3). -/
inductive HKind : Type where
  | hstr : HKind
  | hint : HKind
  | huint : HKind

/-- Membership in a comparable element class. -/
def hasHK : HKind → Attr → Prop
  | .hstr, a => ∃ s, a = .string s
  | .hint, a => ∃ v, a = .int64 v
  | .huint, a => ∃ v, a = .uint64 v

/-- The element order the sort uses on a homogeneous list: `strcmp <= 0`
for Strings, signed comparison for SignedInt, unsigned for UnsignedInt. -/
def leB (a b : Attr) : Bool :=
  match a, b with
  | .string s, .string t => strcmpLe s t
  | .int64 x, .int64 y => decide (x ≤ y)
  | .uint64 x, .uint64 y => decide (x ≤ y)
  | _, _ => false

theorem cmpLeA_hasHK (k : HKind) (a b : Attr) (lstIdx : Nat)
    (ha : hasHK k a) (hb : hasHK k b) :
    cmpLeA a b lstIdx = some (leB a b) := by
  cases k <;> obtain ⟨x, rfl⟩ := ha <;> obtain ⟨y, rfl⟩ := hb <;>
    simp [cmpLeA, leB, toStringA, toInt64A, toUint64A]

theorem strcmpLe_total (s : List Char) : ∀ (t : List Char),
    strcmpLe s t = true ∨ strcmpLe t s = true := by
  induction s with
  | nil => intro t; left; rfl
  | cons a s ih =>
    intro t
    cases t with
    | nil => right; rfl
    | cons b t =>
      rcases Nat.lt_trichotomy a.toNat b.toNat with h | h | h
      · left; simp [strcmpLe, h]
      · have h1 : ¬a.toNat < b.toNat := by omega
        have h2 : ¬b.toNat < a.toNat := by omega
        rcases ih t with hc | hc
        · left; simp [strcmpLe, h1, h2, hc]
        · right; simp [strcmpLe, h1, h2, hc]
      · have h1 : ¬a.toNat < b.toNat := by omega
        right; simp [strcmpLe, h, h1]

theorem leB_total (k : HKind) (a b : Attr) (ha : hasHK k a) (hb : hasHK k b)
    (h : leB a b = false) : leB b a = true := by
  cases k <;> obtain ⟨x, rfl⟩ := ha <;> obtain ⟨y, rfl⟩ := hb <;>
    simp only [leB] at h ⊢
  · rcases strcmpLe_total x y with hc | hc
    · rw [hc] at h; cases h
    · exact hc
  · simp at h ⊢; omega
  · simp at h ⊢; omega

theorem readElem_list (xs : List Attr) (j : Nat) : readElem (.list xs) j = getE xs j := rfl

theorem swap_list_item_list (xs : List Attr) (a b : Nat) :
    swap_list_item (.list xs) a b = .list (swapSlots xs a b) := by
  unfold swap_list_item swapSlots
  by_cases h : a = b <;> simp [h]

/-- Invariant of the partition loop on a homogeneous List: positions
`[lo, i1)` hold elements `≤` pivot, `[i1, j)` elements `>` pivot, the loop
completes (no unsupported kind), permutes only positions `[lo, hi)`, and
leaves the pivot at `hi` untouched. -/
theorem pLoopF_spec (k : HKind) (lstIdx lo hi : Nat) :
    ∀ (rem : Nat) (xs : List Attr) (i1 j : Nat),
      rem = hi - j →
      j ≤ hi →
      hi < xs.length →
      lo ≤ i1 → i1 ≤ j →
      (∀ x ∈ xs, hasHK k x) →
      (∀ q, lo ≤ q → q < i1 → leB (getE xs q) (getE xs hi) = true) →
      (∀ q, i1 ≤ q → q < j → leB (getE xs q) (getE xs hi) = false) →
      ∃ ys i1f,
        pLoopF rem (.list xs) i1 j hi lstIdx = (.list ys, i1f, true)
        ∧ ys.length = xs.length
        ∧ i1 ≤ i1f ∧ i1f ≤ hi
        ∧ ys.Perm xs
        ∧ (∀ q, (q < lo ∨ hi ≤ q) → getE ys q = getE xs q)
        ∧ (∀ q, lo ≤ q → q < i1f → leB (getE ys q) (getE ys hi) = true)
        ∧ (∀ q, i1f ≤ q → q < hi → leB (getE ys q) (getE ys hi) = false)
        ∧ (∀ q, lo ≤ q → q < hi → ∃ r, lo ≤ r ∧ r < hi ∧ getE ys q = getE xs r) := by
  intro rem
  induction rem with
  | zero =>
    intro xs i1 j hrem hj hhi hlo1 hij hk hlow hup
    have hje : j = hi := by omega
    subst hje
    exact ⟨xs, i1, rfl, rfl, Nat.le_refl _, by omega, List.Perm.refl _, fun q _ => rfl,
      hlow, fun q h1 h2 => hup q h1 h2, fun q h1 h2 => ⟨q, h1, h2, rfl⟩⟩
  | succ rem ih =>
    intro xs i1 j hrem hj hhi hlo1 hij hk hlow hup
    have hjlt : j < hi := by omega
    have hjlen : j < xs.length := by omega
    have hi1len : i1 < xs.length := by omega
    have hitem : hasHK k (getE xs j) := hk _ (getE_mem xs j hjlen)
    have hpiv : hasHK k (getE xs hi) := hk _ (getE_mem xs hi hhi)
    have hcmp := cmpLeA_hasHK k _ _ lstIdx hitem hpiv
    cases hle : leB (getE xs j) (getE xs hi) with
    | false =>
      have hstep : pLoopF (rem + 1) (.list xs) i1 j hi lstIdx
          = pLoopF rem (.list xs) i1 (j + 1) hi lstIdx := by
        simp only [pLoopF, readElem_list, hcmp, hle]
      rw [hstep]
      refine ih xs i1 (j + 1) (by omega) (by omega) hhi hlo1 (by omega) hk hlow ?_
      intro q h1 h2
      by_cases hq : q = j
      · subst hq; exact hle
      · exact hup q h1 (by omega)
    | true =>
      have hswap : swap_list_item (.list xs) i1 j = .list (swapSlots xs i1 j) :=
        swap_list_item_list xs i1 j
      have hstep : pLoopF (rem + 1) (.list xs) i1 j hi lstIdx
          = pLoopF rem (.list (swapSlots xs i1 j)) (i1 + 1) (j + 1) hi lstIdx := by
        simp only [pLoopF, readElem_list, hcmp, hle, hswap]
      rw [hstep]
      have hlen' : (swapSlots xs i1 j).length = xs.length := swapSlots_length xs i1 j
      have hperm' : (swapSlots xs i1 j).Perm xs := swapSlots_perm xs i1 j hi1len hjlen
      have hk' : ∀ x ∈ swapSlots xs i1 j, hasHK k x :=
        fun x hx => hk x (hperm'.mem_iff.mp hx)
      have hpiv' : getE (swapSlots xs i1 j) hi = getE xs hi :=
        swapSlots_getE_other xs i1 j hi (by omega) (by omega)
      have hati1 : getE (swapSlots xs i1 j) i1 = getE xs j :=
        swapSlots_getE_fst xs i1 j hi1len hjlen
      have hatj : getE (swapSlots xs i1 j) j = getE xs i1 :=
        swapSlots_getE_snd xs i1 j hi1len hjlen
      have hother : ∀ q, q ≠ i1 → q ≠ j → getE (swapSlots xs i1 j) q = getE xs q :=
        fun q h1 h2 => swapSlots_getE_other xs i1 j q h1 h2
      have hlow' : ∀ q, lo ≤ q → q < i1 + 1 →
          leB (getE (swapSlots xs i1 j) q) (getE (swapSlots xs i1 j) hi) = true := by
        intro q h1 h2
        rw [hpiv']
        by_cases hq : q = i1
        · rw [hq, hati1]; exact hle
        · have hqj : q ≠ j := by omega
          rw [hother q hq hqj]
          exact hlow q h1 (by omega)
      have hup' : ∀ q, i1 + 1 ≤ q → q < j + 1 →
          leB (getE (swapSlots xs i1 j) q) (getE (swapSlots xs i1 j) hi) = false := by
        intro q h1 h2
        rw [hpiv']
        by_cases hq : q = j
        · rw [hq, hatj]
          by_cases hii : i1 = j
          · exact absurd h1 (by omega)
          · exact hup i1 (Nat.le_refl _) (by omega)
        · have hqi : q ≠ i1 := by omega
          rw [hother q hqi hq]
          exact hup q (by omega) (by omega)
      obtain ⟨ys, i1f, heq, hylen, hge, hle2, hyperm, hyout, hylow, hyup, hywit⟩ :=
        ih (swapSlots xs i1 j) (i1 + 1) (j + 1) (by omega) (by omega)
          (by rw [hlen']; exact hhi) (by omega) (by omega) hk' hlow' hup'
      refine ⟨ys, i1f, heq, by rw [hylen, hlen'], by omega, hle2,
        hyperm.trans hperm', ?_, hylow, hyup, ?_⟩
      · intro q hq
        rw [hyout q hq]
        exact hother q (by omega) (by omega)
      · intro q h1 h2
        obtain ⟨r, hr1, hr2, hre⟩ := hywit q h1 h2
        by_cases hri : r = i1
        · exact ⟨j, by omega, by omega, by rw [hre, hri, hati1]⟩
        · by_cases hrj : r = j
          · exact ⟨i1, by omega, by omega, by rw [hre, hrj, hatj]⟩
          · exact ⟨r, hr1, hr2, by rw [hre, hother r hri hrj]⟩

/-- `partition` on a homogeneous List slice `[lo, hi]`: returns a position
`p` with everything left of it `≤` the element now at `p` and everything
right of it (through `hi`) strictly greater; only `[lo, hi]` is permuted. -/
theorem partitionM_spec (k : HKind) (lstIdx : Nat) (xs : List Attr) (lo hi : Nat)
    (hlo : lo ≤ hi) (hhi : hi < xs.length)
    (hk : ∀ x ∈ xs, hasHK k x) :
    ∃ ys p,
      partitionM (.list xs) lo hi lstIdx = (.list ys, p)
      ∧ ys.length = xs.length ∧ lo ≤ p ∧ p ≤ hi
      ∧ ys.Perm xs
      ∧ (∀ q, (q < lo ∨ hi < q) → getE ys q = getE xs q)
      ∧ (∀ q, lo ≤ q → q < p → leB (getE ys q) (getE ys p) = true)
      ∧ (∀ q, p < q → q ≤ hi → leB (getE ys q) (getE ys p) = false)
      ∧ (∀ q, lo ≤ q → q ≤ hi → ∃ r, lo ≤ r ∧ r ≤ hi ∧ getE ys q = getE xs r) := by
  obtain ⟨zs, i1f, heq, hzlen, hge, hle2, hzperm, hzout, hzlow, hzup, hzwit⟩ :=
    pLoopF_spec k lstIdx lo hi (hi - lo) xs lo lo rfl hlo hhi (Nat.le_refl _)
      (Nat.le_refl _) hk (fun q h1 h2 => absurd h1 (by omega))
      (fun q h1 h2 => absurd h2 (by omega))
  have hpm : partitionM (.list xs) lo hi lstIdx = (.list (swapSlots zs i1f hi), i1f) := by
    unfold partitionM pLoop
    rw [heq]
    show (swap_list_item (Attr.list zs) i1f hi, i1f) = _
    rw [swap_list_item_list]
  have hilen : i1f < zs.length := by omega
  have hhlen : hi < zs.length := by omega
  have hz_pivot : getE zs hi = getE xs hi := hzout hi (Or.inr (Nat.le_refl _))
  have hpivot : getE (swapSlots zs i1f hi) i1f = getE xs hi := by
    rw [swapSlots_getE_fst zs i1f hi hilen hhlen]
    exact hz_pivot
  refine ⟨swapSlots zs i1f hi, i1f, hpm, by rw [swapSlots_length, hzlen], hge, hle2,
    (swapSlots_perm zs i1f hi hilen hhlen).trans hzperm, ?_, ?_, ?_, ?_⟩
  · intro q hq
    rw [swapSlots_getE_other zs i1f hi q (by omega) (by omega)]
    exact hzout q (by omega)
  · intro q h1 h2
    rw [swapSlots_getE_other zs i1f hi q (by omega) (by omega), hpivot, ← hz_pivot]
    exact hzlow q h1 h2
  · intro q h1 h2
    by_cases hq : q = hi
    · rw [hq, swapSlots_getE_snd zs i1f hi hilen hhlen, hpivot, ← hz_pivot]
      exact hzup i1f (Nat.le_refl _) (by omega)
    · rw [swapSlots_getE_other zs i1f hi q (by omega) hq, hpivot, ← hz_pivot]
      exact hzup q (by omega) (by omega)
  · intro q h1 h2
    by_cases hq : q = i1f
    · exact ⟨hi, hlo, Nat.le_refl _, by rw [hq]; exact hpivot⟩
    · by_cases hq2 : q = hi
      · obtain ⟨r, hr1, hr2, hre⟩ := hzwit i1f hge (by omega)
        exact ⟨r, hr1, by omega,
          by rw [hq2, swapSlots_getE_snd zs i1f hi hilen hhlen, hre]⟩
      · obtain ⟨r, hr1, hr2, hre⟩ := hzwit q h1 (by omega)
        exact ⟨r, hr1, by omega,
          by rw [swapSlots_getE_other zs i1f hi q hq hq2, hre]⟩

/-- `quicksort` on a homogeneous List slice `[lo, hi]` with enough fuel for
its recursion depth: the slice becomes sorted (adjacent pairs `≤`), the
whole list is a permutation of the input, positions outside the slice are
untouched, and each slice position holds some original slice element. -/
theorem quicksortF_spec (k : HKind) (lstIdx : Nat) :
    ∀ (fuel : Nat) (xs : List Attr) (lo hi : Nat),
      hi < xs.length → hi - lo < fuel →
      (∀ x ∈ xs, hasHK k x) →
      ∃ ys,
        quicksortF fuel (.list xs) lo hi lstIdx = .list ys
        ∧ ys.length = xs.length
        ∧ ys.Perm xs
        ∧ (∀ q, (q < lo ∨ hi < q ∨ hi ≤ lo) → getE ys q = getE xs q)
        ∧ (∀ q, lo ≤ q → q < hi → leB (getE ys q) (getE ys (q + 1)) = true)
        ∧ (∀ q, lo ≤ q → q ≤ hi → ∃ r, lo ≤ r ∧ r ≤ hi ∧ getE ys q = getE xs r) := by
  intro fuel
  induction fuel with
  | zero =>
    intro xs lo hi h1 h2 h3
    exact absurd h2 (by omega)
  | succ fuel ih =>
    intro xs lo hi hhi hfuel hk
    by_cases hbase : lo ≥ hi
    · refine ⟨xs, by simp only [quicksortF, if_pos hbase], rfl, List.Perm.refl _,
        fun q _ => rfl, fun q hq1 hq2 => absurd hq2 (by omega),
        fun q hq1 hq2 => ⟨q, hq1, hq2, rfl⟩⟩
    · have hlohi : lo < hi := by omega
      obtain ⟨zs, p, hpeq, hzlen, hplo, hphi, hzperm, hzout, hzlow, hzup, hzwit⟩ :=
        partitionM_spec k lstIdx xs lo hi (by omega) hhi hk
      have hstep : quicksortF (fuel + 1) (.list xs) lo hi lstIdx
          = quicksortF fuel (quicksortF fuel (.list zs) lo (p - 1) lstIdx) (p + 1) hi
              lstIdx := by
        simp only [quicksortF, if_neg (by omega : ¬lo ≥ hi), hpeq]
      have hk_zs : ∀ x ∈ zs, hasHK k x := fun x hx => hk x (hzperm.mem_iff.mp hx)
      obtain ⟨ys1, heq1, hylen1, hyperm1, hyout1, hysort1, hywit1⟩ :=
        ih zs lo (p - 1) (by omega) (by omega) hk_zs
      have hk_ys1 : ∀ x ∈ ys1, hasHK k x := fun x hx => hk_zs x (hyperm1.mem_iff.mp hx)
      obtain ⟨ys2, heq2, hylen2, hyperm2, hyout2, hysort2, hywit2⟩ :=
        ih ys1 (p + 1) hi (by omega) (by omega) hk_ys1
      have heqa : quicksortF (fuel + 1) (.list xs) lo hi lstIdx = .list ys2 := by
        rw [hstep, heq1, heq2]
      -- the pivot stays at position p through both recursive sorts
      have hpiv1 : getE ys1 p = getE zs p := by
        rcases Nat.eq_zero_or_pos p with hp0 | hp1
        · exact hyout1 p (Or.inr (Or.inr (by omega)))
        · exact hyout1 p (Or.inr (Or.inl (by omega)))
      have hpiv2 : getE ys2 p = getE zs p := by
        rw [hyout2 p (Or.inl (by omega)), hpiv1]
      -- elements of the lower part after sorting still compare ≤ pivot
      have hlow2 : ∀ q, lo ≤ q → q < p → leB (getE ys2 q) (getE ys2 p) = true := by
        intro q h1 h2
        have hq1 : getE ys2 q = getE ys1 q := hyout2 q (Or.inl (by omega))
        obtain ⟨r, hr1, hr2, hre⟩ := hywit1 q h1 (by omega)
        rw [hq1, hre, hpiv2]
        exact hzlow r hr1 (by omega)
      -- elements of the upper part after sorting still compare > pivot
      have hup2 : ∀ q, p < q → q ≤ hi → leB (getE ys2 q) (getE ys2 p) = false := by
        intro q h1 h2
        obtain ⟨r, hr1, hr2, hre⟩ := hywit2 q (by omega) h2
        have hr3 : getE ys1 r = getE zs r := by
          rcases Nat.eq_zero_or_pos p with hp0 | hp1
          · exact hyout1 r (Or.inr (Or.inr (by omega)))
          · exact hyout1 r (Or.inr (Or.inl (by omega)))
        rw [hre, hr3, hpiv2]
        exact hzup r (by omega) hr2
      refine ⟨ys2, heqa, by rw [hylen2, hylen1, hzlen],
        (hyperm2.trans hyperm1).trans hzperm, ?_, ?_, ?_⟩
      · -- untouched outside [lo, hi]
        intro q hq
        have hq' : q < lo ∨ hi < q := by omega
        have e2 : getE ys2 q = getE ys1 q := by
          rcases hq' with h | h
          · exact hyout2 q (Or.inl (by omega))
          · exact hyout2 q (Or.inr (Or.inl h))
        have e1 : getE ys1 q = getE zs q := by
          rcases hq' with h | h
          · exact hyout1 q (Or.inl h)
          · exact hyout1 q (Or.inr (Or.inl (by omega)))
        rw [e2, e1]
        exact hzout q hq'
      · -- adjacent pairs sorted on [lo, hi]
        intro q h1 h2
        rcases Nat.lt_trichotomy (q + 1) p with hc | hc | hc
        · -- both q and q+1 in the lower part
          have e1 : getE ys2 q = getE ys1 q := hyout2 q (Or.inl (by omega))
          have e2 : getE ys2 (q + 1) = getE ys1 (q + 1) := hyout2 (q + 1) (Or.inl (by omega))
          rw [e1, e2]
          exact hysort1 q h1 (by omega)
        · -- boundary: q+1 = p
          have : q < p := by omega
          rw [show q + 1 = p from hc]
          exact hlow2 q h1 this
        · rcases Nat.lt_trichotomy q p with hd | hd | hd
          · exact absurd hc (by omega)
          · -- q = p: pivot against first upper element, by totality
            rw [hd]
            have hups : leB (getE ys2 (p + 1)) (getE ys2 p) = false :=
              hup2 (p + 1) (by omega) (by omega)
            have hm1 : getE ys2 (p + 1) ∈ ys2 :=
              getE_mem ys2 (p + 1) (by rw [hylen2, hylen1, hzlen]; omega)
            have hm2 : getE ys2 p ∈ ys2 :=
              getE_mem ys2 p (by rw [hylen2, hylen1, hzlen]; omega)
            have hk_ys2 : ∀ x ∈ ys2, hasHK k x :=
              fun x hx => hk_ys1 x (hyperm2.mem_iff.mp hx)
            exact leB_total k _ _ (hk_ys2 _ hm1) (hk_ys2 _ hm2) hups
          · -- both q and q+1 in the upper part
            exact hysort2 q (by omega) h2
      · -- each slice position holds some original slice element
        intro q h1 h2
        rcases Nat.lt_trichotomy q p with hd | hd | hd
        · have e1 : getE ys2 q = getE ys1 q := hyout2 q (Or.inl (by omega))
          obtain ⟨r, hr1, hr2, hre⟩ := hywit1 q h1 (by omega)
          obtain ⟨r2, hs1, hs2, hse⟩ := hzwit r hr1 (by omega)
          exact ⟨r2, hs1, hs2, by rw [e1, hre, hse]⟩
        · obtain ⟨r2, hs1, hs2, hse⟩ := hzwit p (by omega) (by omega)
          exact ⟨r2, hs1, hs2, by rw [hd, hpiv2, hse]⟩
        · obtain ⟨r, hr1, hr2, hre⟩ := hywit2 q (by omega) h2
          have hr3 : getE ys1 r = getE zs r := by
            rcases Nat.eq_zero_or_pos p with hp0 | hp1
            · exact hyout1 r (Or.inr (Or.inr (by omega)))
            · exact hyout1 r (Or.inr (Or.inl (by omega)))
          obtain ⟨r2, hs1, hs2, hse⟩ := hzwit r (by omega) hr2
          exact ⟨r2, hs1, hs2, by rw [hre, hr3, hse]⟩

/-- C8: sorting a List whose elements are all Strings (or all signed, or
all unsigned integers) with no nested key path produces a permutation of
the input in which every adjacent pair is `≤` under the respective
comparison (`strcmp` for Strings, signed/unsigned integer order); sorting
an already-sorted or empty list therefore also yields the same multiset. -/
theorem c8_sort_homogeneous (xs : List Attr) (lstIdx : Nat)
    (hk : (∀ x ∈ xs, ∃ s, x = .string s) ∨ (∀ x ∈ xs, ∃ v, x = .int64 v)
      ∨ (∀ x ∈ xs, ∃ v, x = .uint64 v)) :
    ∃ ys,
      sortA (.list xs) lstIdx = .list ys
      ∧ ys.Perm xs
      ∧ (∀ q, q + 1 < ys.length → leB (getE ys q) (getE ys (q + 1)) = true) := by
  have hk' : ∃ k : HKind, ∀ x ∈ xs, hasHK k x := by
    rcases hk with h | h | h
    exacts [⟨.hstr, h⟩, ⟨.hint, h⟩, ⟨.huint, h⟩]
  obtain ⟨k, hkk⟩ := hk'
  rcases Nat.eq_zero_or_pos xs.length with h0 | hpos
  · have hxe : xs = [] := List.length_eq_zero.mp h0
    subst hxe
    exact ⟨[], rfl, List.Perm.refl _, fun q hq => by simp at hq⟩
  · obtain ⟨ys, heq, hlen, hperm, _, hsort, _⟩ :=
      quicksortF_spec k lstIdx xs.length xs 0 (xs.length - 1) (by omega) (by omega) hkk
    refine ⟨ys, ?_, hperm, ?_⟩
    · show quicksortF (sizeA (.list xs)) (.list xs) 0 (sizeA (.list xs) - 1) lstIdx
        = .list ys
      exact heq
    · intro q hq
      rw [hlen] at hq
      exact hsort q (by omega) (by omega)

/-! ## Claim C1 — the encode/decode round trip

Infrastructure: character-code reasoning, bridges between `drop`
decompositions of the input and `charAt` reads, and the inverse lemmas for
each token form (string scan, numeric literal, hex pairs). -/

theorem char_toNat_inj {c d : Char} (h : c.toNat = d.toNat) : c = d :=
  Char.ext (UInt32.ext h)

theorem char_ne (c d : Char) (n : Nat) (hd : d.toNat = n) (h : c.toNat ≠ n) : c ≠ d :=
  fun he => h (by rw [he, hd])

theorem char_beq_false (c d : Char) (n : Nat) (hd : d.toNat = n) (h : c.toNat ≠ n) :
    (c == d) = false := by
  rw [beq_eq_false_iff_ne]
  exact char_ne c d n hd h

theorem isWS_false_of (c : Char) (h32 : c.toNat ≠ 32) (h13 : c.toNat ≠ 13)
    (h10 : c.toNat ≠ 10) (h9 : c.toNat ≠ 9) : isWS c = false := by
  cases hw : isWS c with
  | false => rfl
  | true =>
    exfalso
    simp only [isWS, Bool.or_eq_true, beq_iff_eq] at hw
    rcases hw with ((h | h) | h) | h <;> subst h <;> simp_all

/-- A character that may legally follow a complete token in the places the
round trip reaches: not whitespace (so trailing skips stop), not a
numeric-literal character (so a numeral before it ends), and not `x` (so a
lone `0` is not mistaken for a `0x` prefix).  Satisfied by `,`, `]`, `}`,
`)`, `:` and the terminating NUL. -/
def tokenBoundary (c : Char) : Bool := !isWS c && !isNumRunChar c && !(c == 'x')

theorem getElem?_drop_add {α : Type} : ∀ (s : List α) (p k : Nat), (s.drop p)[k]? = s[p + k]? := by
  intro s p
  induction p generalizing s with
  | zero => intro k; simp
  | succ n ih =>
    intro k
    cases s with
    | nil => simp
    | cons a t =>
      rw [List.drop_succ_cons, ih t k]
      simp [Nat.succ_add]

theorem charAt_drop_add (s : List Char) (p k : Nat) :
    charAt s (p + k) = charAt (s.drop p) k := by
  simp [charAt, List.getD_eq_getElem?_getD, getElem?_drop_add]

theorem charAt_of_drop {s : List Char} {p : Nat} {l : List Char} (h : s.drop p = l)
    (k : Nat) : charAt s (p + k) = charAt l k := by
  rw [charAt_drop_add, h]

theorem drop_of_drop {s : List Char} {p : Nat} {l : List Char} (h : s.drop p = l)
    (n : Nat) : s.drop (p + n) = l.drop n := by
  rw [← h, ← List.drop_drop]

theorem charAt_cons_zero (c : Char) (l : List Char) : charAt (c :: l) 0 = c := rfl

theorem charAt_cons_succ (c : Char) (l : List Char) (k : Nat) :
    charAt (c :: l) (k + 1) = charAt l k := rfl

theorem charAt_append_right (l r : List Char) (k : Nat) :
    charAt (l ++ r) (l.length + k) = charAt r k := by
  simp [charAt, List.getD_eq_getElem?_getD, List.getElem?_append_right
    (Nat.le_add_right l.length k)]

theorem readChars_zero (s : List Char) (i : Nat) : readChars s i 0 = [] := rfl

theorem readChars_succ (s : List Char) (i n : Nat) :
    readChars s i (n + 1) = charAt s i :: readChars s (i + 1) n := by
  unfold readChars
  rw [List.range_succ_eq_map]
  simp only [List.map_cons, List.map_map, Nat.add_zero]
  congr 1
  apply List.map_congr_left
  intro k _
  simp only [Function.comp]
  congr 1
  omega

theorem readChars_of_drop :
    ∀ (content : List Char) (s : List Char) (i : Nat) (rest : List Char),
      s.drop i = content ++ rest → readChars s i content.length = content := by
  intro content
  induction content with
  | nil => intro s i rest _; rfl
  | cons c t ih =>
    intro s i rest h
    rw [List.length_cons, readChars_succ]
    have hc : charAt s i = c := by
      have := charAt_of_drop h 0
      simpa using this
    have ht : s.drop (i + 1) = t ++ rest := by
      have := drop_of_drop h 1
      simpa using this
    rw [hc, ih s (i + 1) rest ht]

theorem takeWhile_ne_nul (l : List Char) (h : ∀ c ∈ l, c ≠ nulC) :
    l.takeWhile (fun ch => ch ≠ nulC) = l := by
  induction l with
  | nil => rfl
  | cons c t ih =>
    rw [List.takeWhile_cons]
    rw [if_pos (by simp [h c (by simp)])]
    rw [ih (fun c hc => h c (by simp [hc]))]

theorem scanStrF_spec :
    ∀ (content : List Char) (f : Nat) (s : List Char) (p : Nat) (q : Char)
      (rest : List Char),
      content.length < f →
      s.drop p = content ++ q :: rest →
      (∀ c ∈ content, c ≠ q ∧ c ≠ nulC) →
      scanStrF f s p q = content.length := by
  intro content
  induction content with
  | nil =>
    intro f s p q rest hf h _
    obtain ⟨f, rfl⟩ : ∃ g, f = g + 1 := ⟨f - 1, by omega⟩
    have hc : charAt s p = q := by simpa using charAt_of_drop h 0
    simp [scanStrF, hc]
  | cons c t ih =>
    intro f s p q rest hf h hcl
    obtain ⟨f, rfl⟩ : ∃ g, f = g + 1 := ⟨f - 1, by simp at hf; omega⟩
    have hc : charAt s p = c := by simpa using charAt_of_drop h 0
    have ht : s.drop (p + 1) = t ++ q :: rest := by simpa using drop_of_drop h 1
    have hcc := hcl c (by simp)
    have hcond : ¬(charAt s p = q ∨ charAt s p = nulC) := by
      rw [hc]; exact not_or_intro hcc.1 hcc.2
    rw [List.length_cons]
    simp only [scanStrF, if_neg hcond]
    rw [ih f s (p + 1) q rest (by simp at hf; omega) ht
      (fun c hc => hcl c (by simp [hc]))]

theorem scanStr_spec (content : List Char) (s : List Char) (p : Nat) (q : Char)
    (rest : List Char) (h : s.drop p = content ++ q :: rest)
    (hcl : ∀ c ∈ content, c ≠ q ∧ c ≠ nulC) :
    scanStr s p q = content.length := by
  have hlen : (s.drop p).length = content.length + 1 + rest.length := by
    rw [h]; simp; omega
  have hfuel : content.length < s.length + 1 - p := by
    rw [List.length_drop] at hlen
    omega
  exact scanStrF_spec content _ s p q rest hfuel h hcl

theorem numRunF_spec :
    ∀ (ds : List Char) (f : Nat) (s : List Char) (p : Nat),
      ds.length < f →
      (∀ k, k < ds.length → charAt s (p + k) = charAt ds k) →
      (∀ c ∈ ds, isNumRunChar c = true) →
      isNumRunChar (charAt s (p + ds.length)) = false →
      numRunF f s p = ds.length := by
  intro ds
  induction ds with
  | nil =>
    intro f s p hf _ _ hb
    obtain ⟨f, rfl⟩ : ∃ g, f = g + 1 := ⟨f - 1, by omega⟩
    simp only [numRunF]
    rw [if_neg (by simp_all)]
    rfl
  | cons c t ih =>
    intro f s p hf hchars hcl hb
    obtain ⟨f, rfl⟩ : ∃ g, f = g + 1 := ⟨f - 1, by simp at hf; omega⟩
    have hc : charAt s p = c := by simpa using hchars 0 (by simp)
    simp only [numRunF, hc, hcl c (by simp), if_true, List.length_cons]
    rw [ih f s (p + 1) (by simp at hf; omega)
      (fun k hk => by
        have := hchars (k + 1) (by simp; omega)
        simpa [Nat.add_assoc, Nat.add_comm 1 k] using this)
      (fun c hc => hcl c (by simp [hc]))
      (by
        have : p + 1 + t.length = p + (c :: t).length := by simp; omega
        rw [this]
        exact hb)]

theorem natToDecimalF_fuel : ∀ (f g n : Nat), n < f → n < g →
    natToDecimalF f n = natToDecimalF g n := by
  intro f
  induction f with
  | zero => intro g n h1 _; omega
  | succ f ih =>
    intro g n h1 h2
    obtain ⟨g, rfl⟩ : ∃ g2, g = g2 + 1 := ⟨g - 1, by omega⟩
    by_cases h : n < 10
    · simp [natToDecimalF, h]
    · have hdiv : n / 10 < n := Nat.div_lt_self (by omega) (by omega)
      simp only [natToDecimalF, if_neg h]
      rw [ih g (n / 10) (by omega) (by omega)]

/-- One-step unfolding of the digit expansion. -/
theorem natToDecimal_eq (n : Nat) :
    natToDecimal n
      = if n < 10 then [digitChar n] else natToDecimal (n / 10) ++ [digitChar (n % 10)] := by
  show natToDecimalF (n + 1) n = _
  by_cases h : n < 10
  · simp [natToDecimalF, h]
  · have hdiv : n / 10 < n := Nat.div_lt_self (by omega) (by omega)
    simp only [natToDecimalF, if_neg h]
    rw [natToDecimalF_fuel n (n / 10 + 1) (n / 10) (by omega) (by omega)]
    rfl

theorem digitChar_toNat : ∀ d, d < 10 → (digitChar d).toNat = 48 + d := by decide

theorem natToDecimal_digits (n : Nat) :
    ∀ c ∈ natToDecimal n, 48 ≤ c.toNat ∧ c.toNat ≤ 57 := by
  induction n using Nat.strong_induction_on with
  | _ n ih =>
    intro c hc
    rw [natToDecimal_eq] at hc
    by_cases h : n < 10
    · rw [if_pos h] at hc
      simp only [List.mem_singleton] at hc
      subst hc
      rw [digitChar_toNat n h]
      omega
    · rw [if_neg h] at hc
      rcases List.mem_append.mp hc with hm | hm
      · exact ih (n / 10) (Nat.div_lt_self (by omega) (by omega)) c hm
      · simp only [List.mem_singleton] at hm
        subst hm
        rw [digitChar_toNat _ (Nat.mod_lt n (by omega))]
        have := Nat.mod_lt n (show 0 < 10 by omega)
        omega

theorem natToDecimal_ne_nil (n : Nat) : natToDecimal n ≠ [] := by
  rw [natToDecimal_eq]
  by_cases h : n < 10 <;> simp [h]

theorem natToDecimal_head_ne_zero (n : Nat) (hn : n ≠ 0) :
    ∀ c t, natToDecimal n = c :: t → c.toNat ≠ 48 := by
  induction n using Nat.strong_induction_on with
  | _ n ih =>
    intro c t hct
    rw [natToDecimal_eq] at hct
    by_cases h : n < 10
    · rw [if_pos h] at hct
      have : c = digitChar n := by
        have := congrArg (fun l => l.headD nulC) hct
        simpa using this.symm
      subst this
      rw [digitChar_toNat n h]
      omega
    · rw [if_neg h] at hct
      obtain ⟨c2, t2, he⟩ : ∃ c2 t2, natToDecimal (n / 10) = c2 :: t2 := by
        cases hh : natToDecimal (n / 10) with
        | nil => exact absurd hh (natToDecimal_ne_nil _)
        | cons a b => exact ⟨a, b, rfl⟩
      rw [he] at hct
      have hcc : c = c2 := by
        have := congrArg (fun l => l.headD nulC) hct
        simpa using this.symm
      subst hcc
      exact ih (n / 10) (Nat.div_lt_self (by omega) (by omega)) (by omega) c t2 he

theorem parseBaseF_digits (l : List Char) (h : ∀ c ∈ l, 48 ≤ c.toNat ∧ c.toNat ≤ 57) :
    ∀ acc, parseBaseF 10 l acc
      = l.foldl (fun a c => a * 10 + (c.toNat - 48)) acc := by
  induction l with
  | nil => intro acc; rfl
  | cons c t ih =>
    intro acc
    have hc := h c (by simp)
    have hdv : digVal 10 c = some (c.toNat - 48) := by
      have hcnd : 48 ≤ c.toNat ∧ c.toNat ≤ 57 := ⟨hc.1, hc.2⟩
      simp only [digVal, if_pos hcnd]
      rw [if_pos (show c.toNat - 48 < 10 by omega)]
    simp only [parseBaseF, hdv, List.foldl_cons]
    exact ih (fun c hc => h c (by simp [hc])) _

theorem foldl_digits_natToDecimal (n : Nat) :
    ∀ acc, (natToDecimal n).foldl (fun a c => a * 10 + (c.toNat - 48)) acc
      = acc * 10 ^ (natToDecimal n).length + n := by
  induction n using Nat.strong_induction_on with
  | _ n ih =>
    intro acc
    rw [natToDecimal_eq]
    by_cases h : n < 10
    · rw [if_pos h]
      simp [digitChar_toNat n h]
    · rw [if_neg h]
      rw [List.foldl_append, ih (n / 10) (Nat.div_lt_self (by omega) (by omega)) acc]
      simp only [List.foldl_cons, List.foldl_nil, List.length_append,
        List.length_singleton]
      rw [digitChar_toNat _ (Nat.mod_lt n (by omega))]
      have hmod := Nat.mod_lt n (show 0 < 10 by omega)
      have hdm := Nat.div_add_mod n 10
      rw [pow_succ]
      ring_nf
      omega

theorem strtoullM_natToDecimal (u : Nat) (hu : u < 2 ^ 64) :
    strtoullM (natToDecimal u) = u := by
  by_cases h0 : u = 0
  · subst h0; decide
  · obtain ⟨c, t, he⟩ : ∃ c t, natToDecimal u = c :: t := by
      cases hh : natToDecimal u with
      | nil => exact absurd hh (natToDecimal_ne_nil _)
      | cons a b => exact ⟨a, b, rfl⟩
    have hhead : c.toNat ≠ 48 := natToDecimal_head_ne_zero u h0 c t he
    have hne : charAt (natToDecimal u) 0 ≠ '0' := by
      rw [he, charAt_cons_zero]
      exact char_ne c '0' 48 rfl hhead
    have hparse : parseBaseF 10 (natToDecimal u) 0 = u := by
      rw [parseBaseF_digits _ (fun c hc => natToDecimal_digits u c hc) 0,
        foldl_digits_natToDecimal u 0]
      omega
    have hbase : strtoullBase (natToDecimal u) = u := by
      unfold strtoullBase
      rw [if_neg (fun hx => hne hx.1), if_neg hne]
      exact hparse
    unfold strtoullM
    rw [hbase, if_pos hu]

theorem toSigned64_toUnsigned64 (v : Int) (h1 : -(2 ^ 63) ≤ v) (h2 : v < 2 ^ 63) :
    toSigned64 (toUnsigned64 v) = v := by
  unfold toSigned64 toUnsigned64
  split <;> omega

theorem toUnsigned64_lt (v : Int) : toUnsigned64 v < 2 ^ 64 := by
  unfold toUnsigned64
  omega

theorem hexNibble_hexDigitChar : ∀ d, d < 16 → hexNibble (hexDigitChar d) = d := by decide

theorem hexDigitChar_class : ∀ d, d < 16 →
    (48 ≤ (hexDigitChar d).toNat ∧ (hexDigitChar d).toNat ≤ 57)
    ∨ (65 ≤ (hexDigitChar d).toNat ∧ (hexDigitChar d).toNat ≤ 70) := by decide

/-- Decoding a `true`/`false` token. -/
theorem decode_bool_token (s : List Char) (pos : Nat) (out : Attr) (fuel : Nat)
    (b : Bool) (rest : List Char)
    (hfuel : encLen (.boolean b) ≤ fuel)
    (hdrop : s.drop pos = encA (.boolean b) ++ rest) :
    s2a fuel s pos out = (.boolean b, pos + encLen (.boolean b)) := by
  obtain ⟨f, rfl⟩ : ∃ f, fuel = f + 1 := ⟨fuel - 1, by
    have := encLen (.boolean b)
    cases b <;> simp [encLen, encA] at hfuel <;> omega⟩
  cases b
  · have h0 : charAt s pos = 'f' := by simpa using charAt_of_drop hdrop 0
    have h1 : charAt s (pos + 1) = 'a' := by simpa using charAt_of_drop hdrop 1
    have h2 : charAt s (pos + 2) = 'l' := by simpa using charAt_of_drop hdrop 2
    have h3 : charAt s (pos + 3) = 's' := by simpa using charAt_of_drop hdrop 3
    have h4 : charAt s (pos + 4) = 'e' := by simpa using charAt_of_drop hdrop 4
    have hsk : skipPos s pos = pos := skipPos_eq s pos (by rw [h0]; decide)
    simp only [s2a, hsk, h0, h1, h2, h3, h4]
    simp +decide [encLen, encA]
  · have h0 : charAt s pos = 't' := by simpa using charAt_of_drop hdrop 0
    have h1 : charAt s (pos + 1) = 'r' := by simpa using charAt_of_drop hdrop 1
    have h2 : charAt s (pos + 2) = 'u' := by simpa using charAt_of_drop hdrop 2
    have h3 : charAt s (pos + 3) = 'e' := by simpa using charAt_of_drop hdrop 3
    have hsk : skipPos s pos = pos := skipPos_eq s pos (by rw [h0]; decide)
    simp only [s2a, hsk, h0, h1, h2, h3]
    simp +decide [encLen, encA]

theorem charAt_append_left (l r : List Char) (k : Nat) (h : k < l.length) :
    charAt (l ++ r) k = charAt l k := by
  simp [charAt, List.getD_eq_getElem?_getD, List.getElem?_append_left h]

theorem digit_isNumRun (c : Char) (h1 : 48 ≤ c.toNat) (h2 : c.toNat ≤ 57) :
    isNumRunChar c = true := by
  simp only [isNumRunChar, Bool.or_eq_true, Bool.and_eq_true, decide_eq_true_eq]
  exact Or.inl (Or.inl ⟨h1, h2⟩)

theorem hasQuote_false_forall (l : List Char) (h : hasQuote l = false) :
    ∀ x ∈ l, x ≠ '\'' := by
  induction l with
  | nil => intro x hx; cases hx
  | cons a t ih =>
    unfold hasQuote at h
    by_cases ha : a = '\''
    · rw [if_pos ha] at h; cases h
    · rw [if_neg ha] at h
      intro x hx
      rcases List.mem_cons.mp hx with hx | hx
      · rw [hx]; exact ha
      · exact ih h x hx

theorem strOk_forall (l : List Char) (h : strOk l = true) :
    ∀ x ∈ l, 0 < x.toNat ∧ x.toNat < 256 := by
  intro x hx
  have := (List.all_eq_true.mp h) x hx
  simpa using this

/-- Decoding a quoted string token: the scan stops at the closing quote and
the copied bytes are exactly the original characters. -/
theorem decode_string_token (s : List Char) (pos : Nat) (out : Attr) (fuel : Nat)
    (str : List Char) (rest : List Char)
    (hwf : wfA (.string str) = true)
    (hrt : rtA (.string str) = true)
    (hfuel : encLen (.string str) ≤ fuel)
    (hdrop : s.drop pos = encA (.string str) ++ rest) :
    s2a fuel s pos out = (.string str, pos + encLen (.string str)) := by
  obtain ⟨f, rfl⟩ : ∃ f, fuel = f + 1 := ⟨fuel - 1, by
    have : 1 ≤ encLen (.string str) := by simp [encLen, encA]
    omega⟩
  have hdrop2 : s.drop pos = '\'' :: (str ++ '\'' :: rest) := by
    rw [hdrop]
    simp [encA]
  have h0 : charAt s pos = '\'' := by simpa using charAt_of_drop hdrop2 0
  have hdropc : s.drop (pos + 1) = str ++ '\'' :: rest := by
    simpa using drop_of_drop hdrop2 1
  have hsk : skipPos s pos = pos := skipPos_eq s pos (by rw [h0]; decide)
  have hwf' : ∀ x ∈ str, 0 < x.toNat ∧ x.toNat < 256 :=
    strOk_forall str (by simpa [wfA] using hwf)
  have hrt' : ∀ x ∈ str, x ≠ '\'' :=
    hasQuote_false_forall str (by simpa [rtA] using hrt)
  have hscan : scanStr s (pos + 1) '\'' = str.length :=
    scanStr_spec str s (pos + 1) '\'' rest hdropc
      (fun c hc => ⟨hrt' c hc, char_ne c nulC 0 rfl (by have := (hwf' c hc).1; omega)⟩)
  have hread : readChars s (pos + 1) str.length = str :=
    readChars_of_drop str s (pos + 1) ('\'' :: rest) hdropc
  have htw : str.takeWhile (fun ch => ch ≠ nulC) = str :=
    takeWhile_ne_nul str (fun c hc => char_ne c nulC 0 rfl (by have := (hwf' c hc).1; omega))
  simp only [s2a, hsk, h0]
  rw [if_pos (Or.inl trivial), hscan, hread, htw]
  have hlen : encLen (.string str) = str.length + 2 := by simp [encLen, encA]
  rw [hlen]
  simp only [Prod.mk.injEq]
  refine ⟨by simp, by omega⟩

theorem hexHead_facts (d : Nat) (hd : d < 16) :
    isWS (hexDigitChar d) = false ∧ hexDigitChar d ≠ ')' ∧ hexDigitChar d ≠ nulC := by
  rcases hexDigitChar_class d hd with ⟨h1, h2⟩ | ⟨h1, h2⟩ <;>
    exact ⟨isWS_false_of _ (by omega) (by omega) (by omega) (by omega),
      char_ne _ ')' 41 rfl (by omega), char_ne _ nulC 0 rfl (by omega)⟩

/-- The Data hex loop consumes exactly the encoded byte body and rebuilds
the original bytes. -/
theorem s2aData_run :
    ∀ (bs : List Nat) (f : Nat) (s : List Char) (p : Nat) (acc : List Nat)
      (rest : List Char),
      s.drop p = encBytes bs ++ ')' :: rest →
      (∀ b ∈ bs, b < 256) →
      (encBytes bs).length < f →
      s2aData f s p acc = (acc ++ bs, p + (encBytes bs).length) := by
  intro bs
  induction bs with
  | nil =>
    intro f s p acc rest hdrop hwf hf
    obtain ⟨f, rfl⟩ : ∃ g, f = g + 1 := ⟨f - 1, by omega⟩
    have h0 : charAt s p = ')' := by
      have := charAt_of_drop hdrop 0
      simpa [encBytes] using this
    simp only [s2aData, h0]
    simp [encBytes]
  | cons b bs ih =>
    intro f s p acc rest hdrop hwf hf
    obtain ⟨f, rfl⟩ : ∃ g, f = g + 1 := ⟨f - 1, by omega⟩
    have hb256 : b < 256 := hwf b (by simp)
    have hdiv : b / 16 < 16 := by omega
    have hmod : b % 16 < 16 := by omega
    have hfacts0 := hexHead_facts (b / 16) hdiv
    have hfacts1 := hexHead_facts (b % 16) hmod
    have hbyte : (hexNibble (hexDigitChar (b / 16)) * 16
        + hexNibble (hexDigitChar (b % 16))) % 256 = b := by
      rw [hexNibble_hexDigitChar _ hdiv, hexNibble_hexDigitChar _ hmod]
      omega
    cases bs with
    | nil =>
      have hdrop2 : s.drop p
          = hexDigitChar (b / 16) :: hexDigitChar (b % 16) :: ')' :: rest := by
        rw [hdrop]
        simp [encBytes, byteHex]
      have h0 : charAt s p = hexDigitChar (b / 16) := by
        simpa using charAt_of_drop hdrop2 0
      have h1 : charAt s (p + 1) = hexDigitChar (b % 16) := by
        simpa using charAt_of_drop hdrop2 1
      have h2 : charAt s (p + 2) = ')' := by
        simpa using charAt_of_drop hdrop2 2
      have hsk2 : skipPos s (p + 2) = p + 2 := skipPos_eq s _ (by rw [h2]; decide)
      simp only [s2aData, h0, h1, h2, hsk2]
      rw [if_neg (not_or_intro hfacts0.2.1 hfacts0.2.2)]
      rw [if_neg (by decide : ¬((')' : Char) = ',')), hbyte]
      obtain ⟨f, rfl⟩ : ∃ g, f = g + 1 := ⟨f - 1, by
        have : (encBytes [b]).length = 2 := by simp [encBytes, byteHex]
        omega⟩
      simp only [s2aData, h2]
      simp [encBytes, byteHex]
    | cons b2 bs2 =>
      have henc : encBytes (b :: b2 :: bs2)
          = hexDigitChar (b / 16) :: hexDigitChar (b % 16) :: ','
            :: encBytes (b2 :: bs2) := by
        simp [encBytes, byteHex]
      have hdrop2 : s.drop p
          = hexDigitChar (b / 16) :: hexDigitChar (b % 16) :: ','
            :: (encBytes (b2 :: bs2) ++ ')' :: rest) := by
        rw [hdrop, henc]
        simp
      have h0 : charAt s p = hexDigitChar (b / 16) := by
        simpa using charAt_of_drop hdrop2 0
      have h1 : charAt s (p + 1) = hexDigitChar (b % 16) := by
        simpa using charAt_of_drop hdrop2 1
      have h2 : charAt s (p + 2) = ',' := by
        simpa using charAt_of_drop hdrop2 2
      obtain ⟨c3, t3, he3⟩ : ∃ c3 t3, encBytes (b2 :: bs2) = c3 :: t3 := by
        cases bs2 <;> simp [encBytes, byteHex]
      have hch3 : c3 = hexDigitChar (b2 / 16) := by
        cases bs2 <;> simp [encBytes, byteHex] at he3 <;> exact he3.1.symm
      have h3 : charAt s (p + 3) = hexDigitChar (b2 / 16) := by
        have := charAt_of_drop hdrop2 3
        rw [he3] at this
        simpa [hch3] using this
      have hb2 : b2 / 16 < 16 := by
        have : b2 < 256 := hwf b2 (by simp)
        omega
      have hsk2 : skipPos s (p + 2) = p + 2 := skipPos_eq s _ (by rw [h2]; decide)
      have hsk3 : skipPos s (p + 3) = p + 3 :=
        skipPos_eq s _ (by rw [h3]; exact (hexHead_facts _ hb2).1)
      simp only [s2aData, h0, h1, h2, hsk2, hsk3]
      rw [if_neg (not_or_intro hfacts0.2.1 hfacts0.2.2)]
      simp only [if_true]
      rw [hbyte]
      have hdrop3 : s.drop (p + 3) = encBytes (b2 :: bs2) ++ ')' :: rest := by
        simpa using drop_of_drop hdrop2 3
      have hlen3 : (encBytes (b :: b2 :: bs2)).length
          = 3 + (encBytes (b2 :: bs2)).length := by
        rw [henc]
        simp
        omega
      rw [ih f s (p + 3) (acc ++ [b]) rest hdrop3
        (fun x hx => hwf x (by simp [hx])) (by omega)]
      simp only [Prod.mk.injEq, List.append_assoc, List.singleton_append]
      exact ⟨by simp, by omega⟩

/-- Decoding a Data token rebuilds the original bytes and stops after the
closing parenthesis. -/
theorem decode_data_token (s : List Char) (pos : Nat) (out : Attr) (fuel : Nat)
    (bs : List Nat) (rest : List Char)
    (hwf : wfA (.data bs) = true)
    (hfuel : encLen (.data bs) ≤ fuel)
    (hdrop : s.drop pos = encA (.data bs) ++ rest)
    (hbws : isWS (charAt s (pos + encLen (.data bs))) = false) :
    s2a fuel s pos out = (.data bs, pos + encLen (.data bs)) := by
  obtain ⟨f, rfl⟩ : ∃ f, fuel = f + 1 := ⟨fuel - 1, by
    have : 1 ≤ encLen (.data bs) := by simp [encLen, encA]
    omega⟩
  have hdrop2 : s.drop pos = '(' :: (encBytes bs ++ ')' :: rest) := by
    rw [hdrop]
    simp [encA]
  have h0 : charAt s pos = '(' := by simpa using charAt_of_drop hdrop2 0
  have hdropc : s.drop (pos + 1) = encBytes bs ++ ')' :: rest := by
    simpa using drop_of_drop hdrop2 1
  have hsk : skipPos s pos = pos := skipPos_eq s pos (by rw [h0]; decide)
  have hwfb : ∀ b ∈ bs, b < 256 := by
    simpa [wfA, List.all_eq_true] using hwf
  have hsk1 : skipPos s (pos + 1) = pos + 1 := by
    apply skipPos_eq
    cases bs with
    | nil =>
      have : charAt s (pos + 1) = ')' := by
        have := charAt_of_drop hdropc 0
        simpa [encBytes] using this
      rw [this]; decide
    | cons b bs2 =>
      obtain ⟨c3, t3, he3⟩ : ∃ c3 t3, encBytes (b :: bs2) = c3 :: t3 := by
        cases bs2 <;> simp [encBytes, byteHex]
      have hch3 : c3 = hexDigitChar (b / 16) := by
        cases bs2 <;> simp [encBytes, byteHex] at he3 <;> exact he3.1.symm
      have hc : charAt s (pos + 1) = hexDigitChar (b / 16) := by
        have := charAt_of_drop hdropc 0
        rw [he3] at this
        simpa [hch3] using this
      rw [hc]
      have hb256 : b < 256 := hwfb b (by simp)
      exact (hexHead_facts (b / 16) (by omega)).1
  have henclen : encLen (.data bs) = (encBytes bs).length + 2 := by
    show (encA (.data bs)).length = _
    simp [encA]
  have hrun : s2aData f s (pos + 1) [] = (bs, pos + 1 + (encBytes bs).length) := by
    have hr := s2aData_run bs f s (pos + 1) [] rest hdropc hwfb (by omega)
    simpa using hr
  have hskend : skipPos s (pos + 1 + (encBytes bs).length + 1)
      = pos + 1 + (encBytes bs).length + 1 := by
    apply skipPos_eq
    have harith : pos + 1 + (encBytes bs).length + 1 = pos + encLen (.data bs) := by
      omega
    rw [harith]
    exact hbws
  simp only [s2a, hsk, h0]
  rw [if_pos trivial]
  simp +decide only [hsk1, hrun, if_true, if_false]
  rw [hskend, henclen]
  exact congrArg (Prod.mk (Attr.data bs)) (by omega)

/-- Decoding a decimal numeral token (the encoding of a SignedInt): the
maximal digit run is consumed and `strtoull`-parsed back to the original
bit pattern. -/
theorem decode_int64_token (s : List Char) (pos : Nat) (out : Attr) (fuel : Nat)
    (v : Int) (rest : List Char)
    (hwf : wfA (.int64 v) = true)
    (hfuel : encLen (.int64 v) ≤ fuel)
    (hdrop : s.drop pos = encA (.int64 v) ++ rest)
    (hb : tokenBoundary (charAt s (pos + encLen (.int64 v))) = true) :
    s2a fuel s pos out = (.int64 v, pos + encLen (.int64 v)) := by
  have hulen : toUnsigned64 v < 2 ^ 64 := toUnsigned64_lt v
  have hdrop2 : s.drop pos = natToDecimal (toUnsigned64 v) ++ rest := hdrop
  obtain ⟨c, t, he⟩ : ∃ c t, natToDecimal (toUnsigned64 v) = c :: t := by
    cases hh : natToDecimal (toUnsigned64 v) with
    | nil => exact absurd hh (natToDecimal_ne_nil _)
    | cons a b => exact ⟨a, b, rfl⟩
  have hdig := natToDecimal_digits (toUnsigned64 v)
  have hcd : 48 ≤ c.toNat ∧ c.toNat ≤ 57 := hdig c (by rw [he]; simp)
  have hc0 : charAt s pos = c := by
    have := charAt_of_drop hdrop2 0
    rw [he] at this
    simpa using this
  have henclen : encLen (.int64 v) = (natToDecimal (toUnsigned64 v)).length := rfl
  obtain ⟨f, rfl⟩ : ∃ f, fuel = f + 1 := ⟨fuel - 1, by
    have hlen1 : 1 ≤ encLen (.int64 v) := by
      rw [henclen, he]
      simp
    omega⟩
  have hq : ¬(charAt s pos = '\'' ∨ charAt s pos = '"') := by
    rw [hc0]
    rintro (h | h)
    · exact char_ne c '\'' 39 rfl (by omega) h
    · exact char_ne c '"' 34 rfl (by omega) h
  have hlb : ¬(charAt s pos = '[') := by rw [hc0]; exact char_ne c '[' 91 rfl (by omega)
  have hcb : ¬(charAt s pos = '{') := by rw [hc0]; exact char_ne c '{' 123 rfl (by omega)
  have hpb : ¬(charAt s pos = '(') := by rw [hc0]; exact char_ne c '(' 40 rfl (by omega)
  have hws : isWS (charAt s pos) = false := by
    rw [hc0]
    exact isWS_false_of c (by omega) (by omega) (by omega) (by omega)
  have hsk : skipPos s pos = pos := skipPos_eq s pos hws
  have hN : ¬(charAt s pos = 'N' ∧ charAt s (pos + 1) = 'o' ∧ charAt s (pos + 2) = 'n'
      ∧ charAt s (pos + 3) = 'e') := by
    intro hx
    exact absurd hx.1 (by rw [hc0]; exact char_ne c 'N' 78 rfl (by omega))
  have hF : ¬(charAt s pos = 'f' ∧ charAt s (pos + 1) = 'a' ∧ charAt s (pos + 2) = 'l'
      ∧ charAt s (pos + 3) = 's' ∧ charAt s (pos + 4) = 'e') := by
    intro hx
    exact absurd hx.1 (by rw [hc0]; exact char_ne c 'f' 102 rfl (by omega))
  have hT : ¬(charAt s pos = 't' ∧ charAt s (pos + 1) = 'r' ∧ charAt s (pos + 2) = 'u'
      ∧ charAt s (pos + 3) = 'e') := by
    intro hx
    exact absurd hx.1 (by rw [hc0]; exact char_ne c 't' 116 rfl (by omega))
  have hbparts : (isWS (charAt s (pos + encLen (.int64 v))) = false
      ∧ isNumRunChar (charAt s (pos + encLen (.int64 v))) = false)
      ∧ charAt s (pos + encLen (.int64 v)) ≠ 'x' := by
    simpa [tokenBoundary, Bool.and_eq_true, Bool.not_eq_true'] using hb
  have hpref : ¬(charAt s pos = '0' ∧ charAt s (pos + 1) = 'x') := by
    by_cases h0 : toUnsigned64 v = 0
    · intro hx
      have hlist : natToDecimal (toUnsigned64 v) = ['0'] := by rw [h0]; decide
      have hlen1 : encLen (.int64 v) = 1 := by rw [henclen, hlist]; rfl
      have hxx := hbparts.2
      rw [hlen1] at hxx
      exact hxx hx.2
    · have hh : c.toNat ≠ 48 := natToDecimal_head_ne_zero _ h0 c t he
      intro hx
      exact char_ne c '0' 48 rfl hh (by rw [← hc0]; exact hx.1)
  have hfdrop : s.length - pos = (natToDecimal (toUnsigned64 v)).length
      + rest.length := by
    have hcl := congrArg List.length hdrop2
    simpa using hcl
  have hnum : numRun s pos = (natToDecimal (toUnsigned64 v)).length := by
    unfold numRun
    refine numRunF_spec (natToDecimal (toUnsigned64 v)) (s.length + 1 - pos) s pos
      ?_ ?_ ?_ ?_
    · have hne : 1 ≤ (natToDecimal (toUnsigned64 v)).length := by rw [he]; simp
      omega
    · intro k hk
      exact (charAt_of_drop hdrop2 k).trans
        (charAt_append_left _ _ k (by simpa using hk))
    · intro ch hch
      have := hdig ch hch
      exact digit_isNumRun ch this.1 this.2
    · rw [← henclen]
      exact hbparts.1.2
  have hread : readChars s pos (natToDecimal (toUnsigned64 v)).length
      = natToDecimal (toUnsigned64 v) := readChars_of_drop _ s pos rest hdrop2
  have hrange : -(2 ^ 63) ≤ v ∧ v < 2 ^ 63 := by
    simpa [wfA, Bool.and_eq_true, decide_eq_true_eq] using hwf
  simp only [s2a, hsk]
  rw [if_neg hq, if_neg hlb, if_neg hcb, if_neg hpb, if_neg hN, if_neg hF, if_neg hT]
  simp only [if_neg hpref]
  rw [hnum, hread]
  simp only [List.nil_append]
  rw [strtoullM_natToDecimal _ hulen, toSigned64_toUnsigned64 v hrange.1 hrange.2,
    henclen]

/-- C8, witness: sorting the integer list `[3, 1, 2]`. -/
theorem c8_sort_homogeneous_wit :
    ∃ ys,
      sortA (.list [Attr.int64 3, .int64 1, .int64 2]) 0 = .list ys
      ∧ ys.Perm [Attr.int64 3, .int64 1, .int64 2]
      ∧ (∀ q, q + 1 < ys.length → leB (getE ys q) (getE ys (q + 1)) = true) :=
  c8_sort_homogeneous [Attr.int64 3, .int64 1, .int64 2] 0
    (Or.inr (Or.inl (by
      intro x hx
      simp only [List.mem_cons, List.not_mem_nil, or_false] at hx
      rcases hx with h | h | h <;> exact ⟨_, h⟩)))

/-! ## Round trip: structural lemmas for the List/Dict loops -/

theorem encLen_pos (v : Attr) : 1 ≤ encLen v := by
  cases v with
  | int64 w =>
    have h := natToDecimal_ne_nil (toUnsigned64 w)
    simp only [encLen, encA]
    cases hh : natToDecimal (toUnsigned64 w) with
    | nil => exact absurd hh h
    | cons a b => simp [hh]
  | uint64 w =>
    have h := natToDecimal_ne_nil w
    simp only [encLen, encA]
    cases hh : natToDecimal w with
    | nil => exact absurd hh h
    | cons a b => simp [hh]
  | boolean b => cases b <;> simp [encLen, encA]
  | _ => simp [encLen, encA]

/-- The first character of any encoded attribute: never whitespace, never a
closing bracket or NUL — so the element loops always enter the token decode
rather than terminating, and whitespace skips before a token are no-ops. -/
theorem encA_head (v : Attr) :
    ∃ c t, encA v = c :: t ∧ isWS c = false ∧ c ≠ ']' ∧ c ≠ '}' ∧ c ≠ nulC := by
  cases v with
  | nil => exact ⟨'N', "one".data, rfl, by decide, by decide, by decide, by decide⟩
  | boolean b =>
    cases b
    · exact ⟨'f', "alse".data, rfl, by decide, by decide, by decide, by decide⟩
    · exact ⟨'t', "rue".data, rfl, by decide, by decide, by decide, by decide⟩
  | int64 w =>
    obtain ⟨c, t, he⟩ : ∃ c t, natToDecimal (toUnsigned64 w) = c :: t := by
      cases hh : natToDecimal (toUnsigned64 w) with
      | nil => exact absurd hh (natToDecimal_ne_nil _)
      | cons a b => exact ⟨a, b, rfl⟩
    have hd := natToDecimal_digits (toUnsigned64 w) c (by rw [he]; simp)
    refine ⟨c, t, by simp [encA, he], isWS_false_of c (by omega) (by omega)
      (by omega) (by omega), char_ne c ']' 93 rfl (by omega),
      char_ne c '}' 125 rfl (by omega), char_ne c nulC 0 rfl (by omega)⟩
  | uint64 w =>
    obtain ⟨c, t, he⟩ : ∃ c t, natToDecimal w = c :: t := by
      cases hh : natToDecimal w with
      | nil => exact absurd hh (natToDecimal_ne_nil _)
      | cons a b => exact ⟨a, b, rfl⟩
    have hd := natToDecimal_digits w c (by rw [he]; simp)
    refine ⟨c, t, by simp [encA, he], isWS_false_of c (by omega) (by omega)
      (by omega) (by omega), char_ne c ']' 93 rfl (by omega),
      char_ne c '}' 125 rfl (by omega), char_ne c nulC 0 rfl (by omega)⟩
  | string str =>
    exact ⟨'\'', str ++ ['\''], rfl, by decide, by decide, by decide, by decide⟩
  | data bs =>
    exact ⟨'(', encBytes bs ++ [')'], rfl, by decide, by decide, by decide, by decide⟩
  | list xs =>
    exact ⟨'[', encElems xs ++ [']'], rfl, by decide, by decide, by decide, by decide⟩
  | dict ps =>
    exact ⟨'{', encPairs ps ++ ['}'], rfl, by decide, by decide, by decide, by decide⟩
  | iface m =>
    exact ⟨'\x7b', "'Type':'IService','ModuleName':'".data ++ m ++ ['\'', '\x7d'], rfl,
      by decide, by decide, by decide, by decide⟩

theorem nilsPrefix_of_all (xs : List Attr)
    (h : xs.all (fun x => !isNilA x) = true) : nilsPrefix xs = true := by
  cases xs with
  | nil => rfl
  | cons x t =>
    have hx : isNilA x = false := by
      have hh := h
      simp only [List.all_cons, Bool.and_eq_true] at hh
      simpa using hh.1
    have ht : t.all (fun a => !isNilA a) = true := by
      have hh := h
      simp only [List.all_cons, Bool.and_eq_true] at hh
      exact hh.2
    simp [nilsPrefix, hx, ht]

theorem nilsPrefix_tail (x : Attr) (xs : List Attr)
    (h : nilsPrefix (x :: xs) = true) : nilsPrefix xs = true := by
  by_cases hx : isNilA x = true
  · simpa [nilsPrefix, hx] using h
  · simp only [nilsPrefix, if_neg hx] at h
    exact nilsPrefix_of_all xs h

theorem any_isNilA_tail (x : Attr) (xs : List Attr)
    (h : nilsPrefix (x :: xs) = true) (hx : isNilA x = false) :
    xs.any isNilA = false := by
  have hall : xs.all (fun a => !isNilA a) = true := by
    simpa [nilsPrefix, hx] using h
  simp only [List.any_eq_false]
  intro a ha
  have hh := List.all_eq_true.mp hall a ha
  simpa using hh

theorem wfListA_mem (xs : List Attr) (h : wfListA xs = true) :
    ∀ x ∈ xs, wfA x = true := by
  induction xs with
  | nil => simp
  | cons y t ih =>
    simp only [wfListA, Bool.and_eq_true] at h
    intro x hx
    rcases List.mem_cons.mp hx with rfl | hm
    · exact h.1
    · exact ih h.2 x hm

theorem rtListA_mem (xs : List Attr) (h : rtListA xs = true) :
    ∀ x ∈ xs, rtA x = true := by
  induction xs with
  | nil => simp
  | cons y t ih =>
    simp only [rtListA, Bool.and_eq_true] at h
    intro x hx
    rcases List.mem_cons.mp hx with rfl | hm
    · exact h.1
    · exact ih h.2 x hm

theorem wfPairsA_mem (ps : List (Attr × Attr)) (h : wfPairsA ps = true) :
    ∀ pr ∈ ps, (∃ ks, pr.1 = .string ks ∧ strOk ks = true) ∧ wfA pr.2 = true := by
  induction ps with
  | nil => simp
  | cons q t ih =>
    obtain ⟨k, v⟩ := q
    simp only [wfPairsA, Bool.and_eq_true] at h
    intro pr hpr
    rcases List.mem_cons.mp hpr with rfl | hm
    · refine ⟨?_, h.1.2⟩
      cases k <;> simp_all
    · exact ih h.2 pr hm

theorem rtPairsA_mem (ps : List (Attr × Attr)) (h : rtPairsA ps = true) :
    ∀ pr ∈ ps, rtA pr.2 = true := by
  induction ps with
  | nil => simp
  | cons q t ih =>
    obtain ⟨k, v⟩ := q
    simp only [rtPairsA, Bool.and_eq_true] at h
    intro pr hpr
    rcases List.mem_cons.mp hpr with rfl | hm
    · exact h.1
    · exact ih h.2 pr hm

/-- Assigning through the auto-vivifying lookup appends a fresh pair when
no existing key matches. -/
theorem dictAssign_append (acc : List (Attr × Attr)) (k : List Char) (v : Attr)
    (h : ∀ pr ∈ acc, toStringA pr.1 ≠ k) :
    dictAssign acc k v = acc ++ [(.string k, v)] := by
  induction acc with
  | nil => rfl
  | cons q t ih =>
    obtain ⟨kk, vv⟩ := q
    have hne : toStringA kk ≠ k := h (kk, vv) (by simp)
    simp only [dictAssign, if_neg hne, List.cons_append, List.cons.injEq, true_and]
    exact ih (fun pr hpr => h pr (by simp [hpr]))

theorem encLen_list (xs : List Attr) :
    encLen (.list xs) = (encElems xs).length + 2 := by
  simp [encLen, encA]

theorem encLen_dict (ps : List (Attr × Attr)) :
    encLen (.dict ps) = (encPairs ps).length + 2 := by
  simp [encLen, encA]

theorem encLen_string (str : List Char) :
    encLen (.string str) = str.length + 2 := by
  simp [encLen, encA]

theorem encElems_cons_ex (z : Attr) (zs : List Attr) :
    ∃ q, encElems (z :: zs) = encA z ++ q := by
  cases zs with
  | nil => exact ⟨[], by simp [encElems]⟩
  | cons w ws => exact ⟨',' :: encElems (w :: ws), rfl⟩

/-- The List-token element loop (attribute.cpp:498-510) consumes the
comma-separated encodings of the remaining elements and the closing
bracket, appending the decoded elements to its accumulator — provided each
element's own encoding decodes correctly (the hypothesis the round-trip
theorem discharges recursively) and Nil elements occur only before the
first non-Nil one (the `None` branch returns the persistent `new_item`
register, which holds Nil only before the first real decode). -/
theorem s2aList_run (s : List Char) (ys : List Attr) :
    ∀ (fuel p : Nat) (acc : List Attr) (item : Attr) (rest : List Char),
    (∀ x ∈ ys, ∀ (pos : Nat) (out : Attr) (fuel2 : Nat) (rest2 : List Char),
        s.drop pos = encA x ++ rest2 →
        tokenBoundary (charAt s (pos + encLen x)) = true →
        encLen x ≤ fuel2 → (x = .nil → out = .nil) →
        s2a fuel2 s pos out = (x, pos + encLen x)) →
    nilsPrefix ys = true →
    (ys.any isNilA = true → item = .nil) →
    s.drop p = encElems ys ++ ']' :: rest →
    isWS (charAt s (p + ((encElems ys).length + 1))) = false →
    (encElems ys).length + 1 ≤ fuel →
    s2aList fuel s p acc item
      = (.list (acc ++ ys), p + ((encElems ys).length + 1)) := by
  induction ys with
  | nil =>
    intro fuel p acc item rest hIH hnils hitem hdrop hws hfuel
    obtain ⟨f, rfl⟩ : ∃ f, fuel = f + 1 := ⟨fuel - 1, by omega⟩
    have hdrop0 : s.drop p = ']' :: rest := by simpa [encElems] using hdrop
    have h0 : charAt s p = ']' := by simpa using charAt_of_drop hdrop0 0
    have hsk : skipPos s (p + 1) = p + 1 := by
      apply skipPos_eq
      have hpos : p + (((encElems ([] : List Attr)).length) + 1) = p + 1 := by
        simp [encElems]
      rw [hpos] at hws
      exact hws
    simp only [s2aList, h0]
    simp +decide only [hsk, if_true]
    simp [encElems]
  | cons y ys ih =>
    intro fuel p acc item rest hIH hnils hitem hdrop hws hfuel
    obtain ⟨f, rfl⟩ : ∃ f, fuel = f + 1 := ⟨fuel - 1, by omega⟩
    obtain ⟨c, t, hct, hcws, hcrb, hccb, hcnul⟩ := encA_head y
    have hitem1 : y = .nil → item = .nil := by
      intro hy
      exact hitem (by simp [hy, isNilA])
    have hposy := encLen_pos y
    cases ys with
    | nil =>
      have hLy : (encElems [y]).length = encLen y := by simp [encElems, encLen]
      have hL0 : (encElems ([] : List Attr)).length = 0 := rfl
      have hdropy : s.drop p = encA y ++ (']' :: rest) := by
        simpa [encElems] using hdrop
      have h0 : charAt s p = c := by
        have hc := charAt_of_drop hdropy 0
        rwa [hct, List.cons_append, Nat.add_zero, charAt_cons_zero] at hc
      have hguard : ¬(c = ']' ∨ c = nulC) := by
        push_neg
        exact ⟨hcrb, hcnul⟩
      have hdropE : s.drop (p + encLen y) = ']' :: rest := by
        have hd := drop_of_drop hdropy (encA y).length
        simpa [encLen, List.drop_left] using hd
      have hbnd : charAt s (p + encLen y) = ']' := by
        simpa using charAt_of_drop hdropE 0
      have htb : tokenBoundary (charAt s (p + encLen y)) = true := by
        rw [hbnd]
        decide
      have hdec := hIH y (by simp) p item f (']' :: rest) hdropy htb
        (by omega) hitem1
      have hsk2 : skipPos s (p + encLen y) = p + encLen y :=
        skipPos_eq s _ (by rw [hbnd]; decide)
      have hws2 : isWS (charAt s (p + encLen y
          + (((encElems ([] : List Attr)).length) + 1))) = false := by
        have hpos : p + (((encElems [y]).length) + 1)
            = p + encLen y + (((encElems ([] : List Attr)).length) + 1) := by
          omega
        rw [hpos] at hws
        exact hws
      have hrec := ih f (p + encLen y) (acc ++ [y]) y rest
        (by intro x hx; cases hx)
        rfl
        (by intro hh; cases hh)
        (by simpa [encElems] using hdropE)
        hws2
        (by omega)
      simp only [s2aList, h0]
      rw [if_neg hguard]
      simp +decide only [hdec, hsk2, hbnd, if_true, if_false]
      rw [hrec]
      simp only [Prod.mk.injEq, List.append_assoc, List.singleton_append,
        List.append_nil]
      constructor
      · simp
      · omega
    | cons z zs =>
      have hEdef : encElems (y :: z :: zs) = encA y ++ (',' :: encElems (z :: zs)) := rfl
      have hLL : (encElems (y :: z :: zs)).length
          = encLen y + 1 + (encElems (z :: zs)).length := by
        rw [hEdef]
        simp only [List.length_append, List.length_cons, encLen]
        omega
      have hdropy : s.drop p = encA y ++ (',' :: (encElems (z :: zs) ++ ']' :: rest)) := by
        rw [hdrop, hEdef]
        simp
      have h0 : charAt s p = c := by
        have hc := charAt_of_drop hdropy 0
        rwa [hct, List.cons_append, Nat.add_zero, charAt_cons_zero] at hc
      have hguard : ¬(c = ']' ∨ c = nulC) := by
        push_neg
        exact ⟨hcrb, hcnul⟩
      have hdropE : s.drop (p + encLen y)
          = ',' :: (encElems (z :: zs) ++ ']' :: rest) := by
        have hd := drop_of_drop hdropy (encA y).length
        simpa [encLen, List.drop_left] using hd
      have hbnd : charAt s (p + encLen y) = ',' := by
        simpa using charAt_of_drop hdropE 0
      have htb : tokenBoundary (charAt s (p + encLen y)) = true := by
        rw [hbnd]
        decide
      have hdec := hIH y (by simp) p item f
        (',' :: (encElems (z :: zs) ++ ']' :: rest)) hdropy htb (by omega) hitem1
      have hsk2 : skipPos s (p + encLen y) = p + encLen y :=
        skipPos_eq s _ (by rw [hbnd]; decide)
      have hdropz : s.drop (p + encLen y + 1) = encElems (z :: zs) ++ ']' :: rest := by
        have hd := drop_of_drop hdropE 1
        simpa using hd
      obtain ⟨cz, tz, hcz, hczws, _, _, _⟩ := encA_head z
      obtain ⟨q, hq⟩ := encElems_cons_ex z zs
      have hcz0 : charAt s (p + encLen y + 1) = cz := by
        have hc := charAt_of_drop hdropz 0
        rw [Nat.add_zero] at hc
        rw [hc, hq]
        rw [List.append_assoc, hcz, List.cons_append, charAt_cons_zero]
      have hsk3 : skipPos s (p + encLen y + 1) = p + encLen y + 1 :=
        skipPos_eq s _ (by rw [hcz0]; exact hczws)
      have hws3 : isWS (charAt s (p + encLen y + 1
          + ((encElems (z :: zs)).length + 1))) = false := by
        have hpos : p + ((encElems (y :: z :: zs)).length + 1)
            = p + encLen y + 1 + ((encElems (z :: zs)).length + 1) := by omega
        rw [hpos] at hws
        exact hws
      have hrec := ih f (p + encLen y + 1) (acc ++ [y]) y rest
        (fun x hx => hIH x (by simp [hx]))
        (nilsPrefix_tail y (z :: zs) hnils)
        (by
          intro hh
          by_cases hy : isNilA y = true
          · exact (isNilA_iff y).mp hy
          · rw [any_isNilA_tail y (z :: zs) hnils (by simpa using hy)] at hh
            cases hh)
        hdropz
        hws3
        (by omega)
      simp only [s2aList, h0]
      rw [if_neg hguard]
      simp +decide only [hdec, hsk2, hbnd, if_true, if_false]
      rw [hsk3, hrec]
      simp only [Prod.mk.injEq, List.append_assoc, List.singleton_append]
      refine ⟨by simp, by omega⟩

theorem encPairs_cons_ex (k : Attr) (v : Attr) (qs : List (Attr × Attr)) :
    ∃ q, encPairs ((k, v) :: qs)
      = '\'' :: (toStringA k ++ ('\'' :: ':' :: encA v)) ++ q := by
  cases qs with
  | nil => exact ⟨[], by simp [encPairs]⟩
  | cons w ws => exact ⟨',' :: encPairs (w :: ws), rfl⟩

theorem keyStrs_not_mem (qs : List (Attr × Attr)) (ks : List Char)
    (h : ks ∉ keyStrs qs) : ∀ pr ∈ qs, toStringA pr.1 ≠ ks := by
  intro pr hpr heq
  exact h (heq ▸ List.mem_map_of_mem _ hpr)

/-- The Dict-token pair loop (attribute.cpp:516-536) consumes the
comma-separated `'key':value` encodings and the closing brace, assigning
each decoded pair through the auto-vivifying lookup — which appends it,
since keys are distinct and fresh relative to the accumulator — provided
each value's encoding decodes correctly and Nil values occur only before
the first non-Nil one (the `None` branch returns the persistent
`new_value` register). -/
theorem s2aDict_run (s : List Char) (qs : List (Attr × Attr)) :
    ∀ (fuel p : Nat) (acc : List (Attr × Attr)) (key val : Attr)
      (rest : List Char),
    (∀ x ∈ qs.map Prod.snd, ∀ (pos : Nat) (out : Attr) (fuel2 : Nat)
        (rest2 : List Char),
        s.drop pos = encA x ++ rest2 →
        tokenBoundary (charAt s (pos + encLen x)) = true →
        encLen x ≤ fuel2 → (x = .nil → out = .nil) →
        s2a fuel2 s pos out = (x, pos + encLen x)) →
    wfPairsA qs = true →
    (∀ pr ∈ qs, hasQuote (toStringA pr.1) = false) →
    nilsPrefix (qs.map Prod.snd) = true →
    ((qs.map Prod.snd).any isNilA = true → val = .nil) →
    (keyStrs qs).Nodup →
    (∀ pr ∈ qs, ∀ pr2 ∈ acc, toStringA pr2.1 ≠ toStringA pr.1) →
    s.drop p = encPairs qs ++ '}' :: rest →
    isWS (charAt s (p + ((encPairs qs).length + 1))) = false →
    (encPairs qs).length + 1 ≤ fuel →
    s2aDict fuel s p acc key val
      = (acc ++ qs, p + ((encPairs qs).length + 1)) := by
  induction qs with
  | nil =>
    intro fuel p acc key val rest hIH hwf hkq hnils hval hnd hfresh hdrop hws hfuel
    obtain ⟨f, rfl⟩ : ∃ f, fuel = f + 1 := ⟨fuel - 1, by omega⟩
    have hdrop0 : s.drop p = '}' :: rest := by simpa [encPairs] using hdrop
    have h0 : charAt s p = '}' := by simpa using charAt_of_drop hdrop0 0
    have hsk : skipPos s (p + 1) = p + 1 := by
      apply skipPos_eq
      have hpos : p + (((encPairs ([] : List (Attr × Attr))).length) + 1)
          = p + 1 := by
        simp [encPairs]
      rw [hpos] at hws
      exact hws
    simp only [s2aDict, h0]
    simp +decide only [hsk, if_true]
    simp [encPairs]
  | cons q qs ih =>
    intro fuel p acc key val rest hIH hwf hkq hnils hval hnd hfresh hdrop hws hfuel
    obtain ⟨k, v⟩ := q
    obtain ⟨⟨ks, hks, hsok⟩, hwfv⟩ := wfPairsA_mem ((k, v) :: qs) hwf (k, v) (by simp)
    simp only at hks
    subst hks
    obtain ⟨f, rfl⟩ : ∃ f, fuel = f + 1 := ⟨fuel - 1, by omega⟩
    have hposv := encLen_pos v
    have hkqh : hasQuote ks = false := by
      have := hkq (.string ks, v) (by simp)
      simpa [toStringA] using this
    have hval1 : v = .nil → val = .nil := by
      intro hv
      exact hval (by simp [hv, isNilA])
    obtain ⟨tl, htl⟩ := encPairs_cons_ex (.string ks) v qs
    have hRest : ∃ tail, s.drop p
        = encA (.string ks) ++ (':' :: (encA v ++ tail))
        ∧ s.drop p = encPairs ((Attr.string ks, v) :: qs) ++ '}' :: rest := by
      refine ⟨tl ++ '}' :: rest, ?_, hdrop⟩
      rw [hdrop, htl]
      simp [encA, toStringA, List.append_assoc]
    obtain ⟨tail, hdropk, _⟩ := hRest
    have hLp : (encPairs ((Attr.string ks, v) :: qs)).length
        = ks.length + 3 + encLen v + tl.length := by
      rw [htl]
      simp only [List.length_append, List.length_cons, List.cons_append,
        toStringA, encLen]
      omega
    have hEk : encLen (.string ks) = ks.length + 2 := encLen_string ks
    have hdeck : s2a f s p key = (.string ks, p + encLen (.string ks)) := by
      refine decode_string_token s p key f ks (':' :: (encA v ++ tail))
        (by simpa [wfA] using hsok) (by simp [rtA, hkqh]) ?_ hdropk
      have htll : 1 ≤ tl.length ∨ tl = [] := by
        cases tl
        · exact Or.inr rfl
        · exact Or.inl (by simp)
      omega
    have h0 : charAt s p = '\'' := by
      have hc := charAt_of_drop hdropk 0
      rw [Nat.add_zero] at hc
      rw [hc]
      rfl
    have hdropA : s.drop (p + encLen (.string ks))
        = ':' :: (encA v ++ tail) := by
      have hd := drop_of_drop hdropk (encA (.string ks)).length
      simpa [encLen, List.drop_left] using hd
    have hbndk : charAt s (p + encLen (.string ks)) = ':' := by
      simpa using charAt_of_drop hdropA 0
    have hsk2 : skipPos s (p + encLen (.string ks)) = p + encLen (.string ks) :=
      skipPos_eq s _ (by rw [hbndk]; decide)
    have hdropv : s.drop (p + encLen (.string ks) + 1) = encA v ++ tail := by
      have hd := drop_of_drop hdropA 1
      simpa using hd
    obtain ⟨cv, tv, hcv, hcvws, _, _, _⟩ := encA_head v
    have hcv0 : charAt s (p + encLen (.string ks) + 1) = cv := by
      have hc := charAt_of_drop hdropv 0
      rw [Nat.add_zero] at hc
      rw [hc, hcv, List.cons_append, charAt_cons_zero]
    have hsk4 : skipPos s (p + encLen (.string ks) + 1)
        = p + encLen (.string ks) + 1 :=
      skipPos_eq s _ (by rw [hcv0]; exact hcvws)
    have hdropvE : s.drop (p + encLen (.string ks) + 1 + encLen v) = tail := by
      have hd := drop_of_drop hdropv (encA v).length
      simpa [encLen, List.drop_left] using hd
    have hfreshk : ∀ pr2 ∈ acc, toStringA pr2.1 ≠ ks := by
      intro pr2 hpr2
      have := hfresh (.string ks, v) (by simp) pr2 hpr2
      simpa [toStringA] using this
    have hassign : dictAssign acc ks v = acc ++ [(.string ks, v)] :=
      dictAssign_append acc ks v hfreshk
    have hndk : ks ∉ keyStrs qs ∧ (keyStrs qs).Nodup := by
      have hh := hnd
      simp only [keyStrs, List.map_cons, toStringA] at hh
      have := List.nodup_cons.mp hh
      exact ⟨by simpa [keyStrs] using this.1, by simpa [keyStrs] using this.2⟩
    cases qs with
    | nil =>
      have htl0 : tl = [] := by
        cases tl with
        | nil => rfl
        | cons a b =>
          exfalso
          simp [encPairs, toStringA] at htl
      subst htl0
      have hlen0 : (List.length ([] : List Char)) = 0 := rfl
      have htail : tail = '}' :: rest := by
        have h1 := hdrop
        rw [htl] at h1
        simp only [List.append_nil] at h1
        have h2 : s.drop p = encA (.string ks) ++ (':' :: (encA v ++ ('}' :: rest))) := by
          rw [h1]
          simp [encA, toStringA, List.append_assoc]
        rw [hdropk] at h2
        have := List.append_cancel_left h2
        simpa using this
      subst htail
      have hbndv : charAt s (p + encLen (.string ks) + 1 + encLen v) = '}' := by
        simpa using charAt_of_drop hdropvE 0
      have htbv : tokenBoundary (charAt s (p + encLen (.string ks) + 1 + encLen v))
          = true := by
        rw [hbndv]
        decide
      have hdecv := hIH v (by simp) (p + encLen (.string ks) + 1) val f
        ('}' :: rest) hdropv htbv (by omega) hval1
      have hsk6 : skipPos s (p + encLen (.string ks) + 1 + encLen v)
          = p + encLen (.string ks) + 1 + encLen v :=
        skipPos_eq s _ (by rw [hbndv]; decide)
      have hL0 : (encPairs ([] : List (Attr × Attr))).length = 0 := rfl
      have hws2 : isWS (charAt s (p + encLen (.string ks) + 1 + encLen v
          + (((encPairs ([] : List (Attr × Attr))).length) + 1))) = false := by
        have hpos : p + (((encPairs [(Attr.string ks, v)]).length) + 1)
            = p + encLen (.string ks) + 1 + encLen v
              + (((encPairs ([] : List (Attr × Attr))).length) + 1) := by
          omega
        rw [hpos] at hws
        exact hws
      have hrec := ih f (p + encLen (.string ks) + 1 + encLen v)
        (acc ++ [(.string ks, v)]) (.string ks) v rest
        (by intro x hx; simp at hx)
        rfl
        (by intro pr hpr; simp at hpr)
        rfl
        (by intro hh; simp [isNilA] at hh)
        (by simp [keyStrs])
        (by intro pr hpr; simp at hpr)
        (by simpa [encPairs] using hdropvE)
        hws2
        (by omega)
      simp only [s2aDict, h0]
      rw [if_neg (by decide)]
      simp +decide only [hdeck, hsk2, hbndk, hsk4, hdecv, toStringA, hassign,
        hsk6, hbndv, if_true, if_false]
      rw [hrec]
      simp only [Prod.mk.injEq, List.append_assoc, List.singleton_append,
        List.append_nil]
      refine ⟨by simp, by omega⟩
    | cons w ws =>
      have htl1 : ',' :: encPairs (w :: ws) = tl := by
        simpa [encPairs, toStringA] using htl
      have htail : tail = ',' :: (encPairs (w :: ws) ++ '}' :: rest) := by
        have h2 : s.drop p = encA (.string ks)
            ++ (':' :: (encA v ++ (',' :: (encPairs (w :: ws) ++ '}' :: rest)))) := by
          rw [hdrop, htl, ← htl1]
          simp [encA, toStringA, List.append_assoc]
        rw [hdropk] at h2
        have := List.append_cancel_left h2
        simpa using this
      subst htail
      have hbndv : charAt s (p + encLen (.string ks) + 1 + encLen v) = ',' := by
        simpa using charAt_of_drop hdropvE 0
      have htbv : tokenBoundary (charAt s (p + encLen (.string ks) + 1 + encLen v))
          = true := by
        rw [hbndv]
        decide
      have hdecv := hIH v (by simp) (p + encLen (.string ks) + 1) val f
        (',' :: (encPairs (w :: ws) ++ '}' :: rest)) hdropv htbv (by omega) hval1
      have hsk6 : skipPos s (p + encLen (.string ks) + 1 + encLen v)
          = p + encLen (.string ks) + 1 + encLen v :=
        skipPos_eq s _ (by rw [hbndv]; decide)
      have hdropn : s.drop (p + encLen (.string ks) + 1 + encLen v + 1)
          = encPairs (w :: ws) ++ '}' :: rest := by
        have hd := drop_of_drop hdropvE 1
        simpa using hd
      obtain ⟨w1, w2⟩ := w
      obtain ⟨tn, htn⟩ := encPairs_cons_ex w1 w2 ws
      have hcn0 : charAt s (p + encLen (.string ks) + 1 + encLen v + 1) = '\'' := by
        have hc := charAt_of_drop hdropn 0
        rw [Nat.add_zero] at hc
        rw [hc, htn]
        rfl
      have hsk7 : skipPos s (p + encLen (.string ks) + 1 + encLen v + 1)
          = p + encLen (.string ks) + 1 + encLen v + 1 :=
        skipPos_eq s _ (by rw [hcn0]; decide)
      have hLtl : tl.length = 1 + (encPairs ((w1, w2) :: ws)).length := by
        rw [← htl1]
        simp only [List.length_cons]
        omega
      have hws3 : isWS (charAt s (p + encLen (.string ks) + 1 + encLen v + 1
          + (((encPairs ((w1, w2) :: ws)).length) + 1))) = false := by
        have hpos : p + (((encPairs ((Attr.string ks, v) :: (w1, w2) :: ws)).length) + 1)
            = p + encLen (.string ks) + 1 + encLen v + 1
              + (((encPairs ((w1, w2) :: ws)).length) + 1) := by
          omega
        rw [hpos] at hws
        exact hws
      have hrec := ih f (p + encLen (.string ks) + 1 + encLen v + 1)
        (acc ++ [(.string ks, v)]) (.string ks) v rest
        (fun x hx => hIH x (by rw [List.map_cons]; exact List.mem_cons_of_mem _ hx))
        (by
          have hh := hwf
          simp only [wfPairsA, Bool.and_eq_true] at hh
          simp only [wfPairsA, Bool.and_eq_true]
          exact hh.2)
        (fun pr hpr => hkq pr (List.mem_cons_of_mem _ hpr))
        (by
          have := nilsPrefix_tail v (((w1, w2) :: ws).map Prod.snd) ?_
          · exact this
          · simpa using hnils)
        (by
          intro hh
          by_cases hv : isNilA v = true
          · exact (isNilA_iff v).mp hv
          · have hany := any_isNilA_tail v (((w1, w2) :: ws).map Prod.snd)
              (by simpa using hnils) (by simpa using hv)
            rw [hany] at hh
            cases hh)
        hndk.2
        (by
          intro pr hpr pr2 hpr2
          rcases List.mem_append.mp hpr2 with hm | hm
          · exact hfresh pr (List.mem_cons_of_mem _ hpr) pr2 hm
          · have hpr2e : pr2 = (Attr.string ks, v) := by simpa using hm
            rw [hpr2e]
            exact Ne.symm (keyStrs_not_mem _ ks hndk.1 pr hpr))
        hdropn
        hws3
        (by omega)
      simp only [s2aDict, h0]
      rw [if_neg (by decide)]
      simp +decide only [hdeck, hsk2, hbndk, hsk4, hdecv, toStringA, hassign,
        hsk6, hbndv, if_true, if_false]
      rw [hsk7, hrec]
      simp only [Prod.mk.injEq, List.append_assoc, List.singleton_append]
      refine ⟨by simp, by omega⟩

/-- Decoding the encoder's output: at any position of any input whose
suffix there is `encA v` followed by a token-boundary character, the
decoder returns exactly `v` and the position just past its text — for
well-formed `v` in the round-trippable class, from any output register
that is Nil when `v` is Nil (as a fresh top-level decode is). -/
theorem s2a_enc : ∀ (n : Nat) (v : Attr), sizeOf v ≤ n →
    ∀ (s : List Char) (pos : Nat) (out : Attr) (fuel : Nat) (rest : List Char),
    wfA v = true → rtA v = true →
    s.drop pos = encA v ++ rest →
    tokenBoundary (charAt s (pos + encLen v)) = true →
    encLen v ≤ fuel →
    (v = .nil → out = .nil) →
    s2a fuel s pos out = (v, pos + encLen v) := by
  intro n
  induction n with
  | zero =>
    intro v hv
    exfalso
    cases v <;> simp at hv
  | succ n ih =>
    intro v hv s pos out fuel rest hwf hrt hdrop htb hfuel hout
    cases v with
    | nil =>
      have hout2 := hout rfl
      subst hout2
      have hdrop4 : s.drop pos = 'N' :: 'o' :: 'n' :: 'e' :: rest := by
        simpa [encA] using hdrop
      have h0 : charAt s pos = 'N' := by simpa using charAt_of_drop hdrop4 0
      have h1 : charAt s (pos + 1) = 'o' := by simpa using charAt_of_drop hdrop4 1
      have h2 : charAt s (pos + 2) = 'n' := by simpa using charAt_of_drop hdrop4 2
      have h3 : charAt s (pos + 3) = 'e' := by simpa using charAt_of_drop hdrop4 3
      have hsk : skipPos s pos = pos := skipPos_eq s pos (by rw [h0]; decide)
      have hres := decode_none_token s pos .nil fuel
        (by have := encLen_pos Attr.nil; omega)
        (by rw [hsk]; exact h0) (by rw [hsk]; exact h1)
        (by rw [hsk]; exact h2) (by rw [hsk]; exact h3)
      rw [hres, hsk]
      have hE : encLen Attr.nil = 4 := by decide
      exact congrArg (Prod.mk Attr.nil) (by omega)
    | boolean b => exact decode_bool_token s pos out fuel b rest hfuel hdrop
    | int64 w => exact decode_int64_token s pos out fuel w rest hwf hfuel hdrop htb
    | uint64 w =>
      exfalso
      simp [rtA] at hrt
    | string str => exact decode_string_token s pos out fuel str rest hwf hrt hfuel hdrop
    | data bs =>
      refine decode_data_token s pos out fuel bs rest hwf hfuel hdrop ?_
      have hh := htb
      simp only [tokenBoundary, Bool.and_eq_true, Bool.not_eq_true'] at hh
      exact hh.1.1
    | iface m =>
      exfalso
      simp [rtA] at hrt
    | list xs =>
      obtain ⟨f, rfl⟩ : ∃ f, fuel = f + 1 :=
        ⟨fuel - 1, by have := encLen_pos (.list xs); omega⟩
      have hE : encLen (.list xs) = (encElems xs).length + 2 := encLen_list xs
      have hdropl : s.drop pos = '[' :: (encElems xs ++ ']' :: rest) := by
        rw [hdrop]
        simp [encA]
      have h0 : charAt s pos = '[' := by simpa using charAt_of_drop hdropl 0
      have hsk : skipPos s pos = pos := skipPos_eq s pos (by rw [h0]; decide)
      have hdrop1 : s.drop (pos + 1) = encElems xs ++ ']' :: rest := by
        simpa using drop_of_drop hdropl 1
      have hsk1 : skipPos s (pos + 1) = pos + 1 := by
        apply skipPos_eq
        cases xs with
        | nil =>
          have hc : charAt s (pos + 1) = ']' := by
            simpa [encElems] using charAt_of_drop hdrop1 0
          rw [hc]
          decide
        | cons z zs =>
          obtain ⟨cz, tz, hcz, hczws, _, _, _⟩ := encA_head z
          obtain ⟨q, hq⟩ := encElems_cons_ex z zs
          have hc : charAt s (pos + 1) = cz := by
            have hcc := charAt_of_drop hdrop1 0
            rw [Nat.add_zero] at hcc
            rw [hcc, hq, List.append_assoc, hcz, List.cons_append, charAt_cons_zero]
          rw [hc]
          exact hczws
      have hrtl : rtListA xs = true ∧ nilsPrefix xs = true := by
        simpa [rtA, Bool.and_eq_true] using hrt
      have hIHe : ∀ x ∈ xs, ∀ (pos2 : Nat) (out2 : Attr) (fuel2 : Nat)
          (rest2 : List Char),
          s.drop pos2 = encA x ++ rest2 →
          tokenBoundary (charAt s (pos2 + encLen x)) = true →
          encLen x ≤ fuel2 → (x = .nil → out2 = .nil) →
          s2a fuel2 s pos2 out2 = (x, pos2 + encLen x) := by
        intro x hx pos2 out2 fuel2 rest2 hdrop2 htb2 hfuel2 hout2
        have h1 : sizeOf x < sizeOf xs := List.sizeOf_lt_of_mem hx
        have h2 : sizeOf (Attr.list xs) = 1 + sizeOf xs := by simp
        exact ih x (by omega) s pos2 out2 fuel2 rest2
          (wfListA_mem xs (by simpa [wfA] using hwf) x hx)
          (rtListA_mem xs hrtl.1 x hx) hdrop2 htb2 hfuel2 hout2
      have hws : isWS (charAt s (pos + 1 + ((encElems xs).length + 1))) = false := by
        have hpos : pos + encLen (.list xs) = pos + 1 + ((encElems xs).length + 1) := by
          omega
        have hh := htb
        simp only [tokenBoundary, Bool.and_eq_true, Bool.not_eq_true'] at hh
        rw [hpos] at hh
        exact hh.1.1
      have hrun := s2aList_run s xs f (pos + 1) [] .nil rest hIHe hrtl.2
        (fun _ => rfl) hdrop1 hws (by omega)
      simp only [s2a, hsk, h0]
      simp +decide only [hsk1, if_true, if_false]
      rw [hrun]
      simp only [List.nil_append]
      exact congrArg (Prod.mk (Attr.list xs)) (by omega)
    | dict ps =>
      obtain ⟨f, rfl⟩ : ∃ f, fuel = f + 1 :=
        ⟨fuel - 1, by have := encLen_pos (.dict ps); omega⟩
      have hE : encLen (.dict ps) = (encPairs ps).length + 2 := encLen_dict ps
      have hdropl : s.drop pos = '{' :: (encPairs ps ++ '}' :: rest) := by
        rw [hdrop]
        simp [encA]
      have h0 : charAt s pos = '{' := by simpa using charAt_of_drop hdropl 0
      have hsk : skipPos s pos = pos := skipPos_eq s pos (by rw [h0]; decide)
      have hdrop1 : s.drop (pos + 1) = encPairs ps ++ '}' :: rest := by
        simpa using drop_of_drop hdropl 1
      have hsk1 : skipPos s (pos + 1) = pos + 1 := by
        apply skipPos_eq
        cases ps with
        | nil =>
          have hc : charAt s (pos + 1) = '}' := by
            simpa [encPairs] using charAt_of_drop hdrop1 0
          rw [hc]
          decide
        | cons q qs =>
          obtain ⟨k1, v1⟩ := q
          obtain ⟨tn, htn⟩ := encPairs_cons_ex k1 v1 qs
          have hc : charAt s (pos + 1) = '\'' := by
            have hcc := charAt_of_drop hdrop1 0
            rw [Nat.add_zero] at hcc
            rw [hcc, htn, List.cons_append, List.cons_append, charAt_cons_zero]
          rw [hc]
          decide
      have hcomp := hrt
      simp only [rtA, Bool.and_eq_true] at hcomp
      obtain ⟨⟨⟨⟨hrtp, hkq0⟩, hnd0⟩, hhk0⟩, hnils0⟩ := hcomp
      have hkq : ∀ pr ∈ ps, hasQuote (toStringA pr.1) = false := by
        intro pr hpr
        have := List.all_eq_true.mp hkq0 pr hpr
        simpa using this
      have hnd : (keyStrs ps).Nodup := of_decide_eq_true hnd0
      have hhk : has_key ps "Type".data = false := by
        simpa using hhk0
      have hwfp : wfPairsA ps = true := by simpa [wfA] using hwf
      have hIHe : ∀ x ∈ ps.map Prod.snd, ∀ (pos2 : Nat) (out2 : Attr)
          (fuel2 : Nat) (rest2 : List Char),
          s.drop pos2 = encA x ++ rest2 →
          tokenBoundary (charAt s (pos2 + encLen x)) = true →
          encLen x ≤ fuel2 → (x = .nil → out2 = .nil) →
          s2a fuel2 s pos2 out2 = (x, pos2 + encLen x) := by
        intro x hx pos2 out2 fuel2 rest2 hdrop2 htb2 hfuel2 hout2
        obtain ⟨pr, hpr, rfl⟩ := List.mem_map.mp hx
        have h1 : sizeOf pr < sizeOf ps := List.sizeOf_lt_of_mem hpr
        have h2 : sizeOf (Attr.dict ps) = 1 + sizeOf ps := by simp
        have h3 : sizeOf pr.2 < sizeOf pr := by
          obtain ⟨a, b⟩ := pr
          simp
        exact ih pr.2 (by omega) s pos2 out2 fuel2 rest2
          ((wfPairsA_mem ps hwfp pr hpr).2)
          (rtPairsA_mem ps hrtp pr hpr) hdrop2 htb2 hfuel2 hout2
      have hws : isWS (charAt s (pos + 1 + ((encPairs ps).length + 1))) = false := by
        have hpos : pos + encLen (.dict ps) = pos + 1 + ((encPairs ps).length + 1) := by
          omega
        have hh := htb
        simp only [tokenBoundary, Bool.and_eq_true, Bool.not_eq_true'] at hh
        rw [hpos] at hh
        exact hh.1.1
      have hrun := s2aDict_run s ps f (pos + 1) [] .nil .nil rest hIHe hwfp hkq
        hnils0 (fun _ => rfl) hnd
        (by intro pr hpr pr2 hpr2; simp at hpr2)
        hdrop1 hws (by omega)
      simp only [s2a, hsk, h0]
      simp +decide only [hsk1, if_true, if_false]
      rw [hrun]
      simp only [List.nil_append]
      rw [if_neg (by simp [hhk])]
      exact congrArg (Prod.mk (Attr.dict ps)) (by omega)

/-- C1 (amended): for every constructible value built only from the kinds
Nil, Boolean, SignedInt, String, Data, List and Dict, whose strings and
dict keys contain no single-quote character, whose dicts have pairwise
distinct keys and no non-Nil `Type` entry, and whose Nil elements occur
only as an initial run of a List's elements or a Dict's values, decoding
the text produced by encoding the value (into a Nil output attribute, as a
fresh top-level decode) yields exactly the value's kind, size and content:
String and Data byte content identical, List and Dict structurally equal
element-by-element, with Dict pair order as produced by the encoder. -/
theorem c1_encode_decode (v : Attr) (hwf : wfA v = true) (hrt : rtA v = true) :
    s2a (encLen v) (encA v) 0 .nil = (v, encLen v) := by
  have hc : charAt (encA v) (0 + encLen v) = nulC := by
    apply charAt_of_le
    simp [encLen]
  have h := s2a_enc (sizeOf v) v le_rfl (encA v) 0 .nil (encLen v) [] hwf hrt
    (by simp) (by rw [hc]; decide) le_rfl (fun _ => rfl)
  simpa using h

/-- C1, witness: a compound value exercising every round-trippable kind —
a List holding a leading Nil, a Boolean, a negative SignedInt, a String,
a Data blob and a one-pair Dict — encodes and decodes back to itself. -/
theorem c1_encode_decode_wit :
    wfA (Attr.list [.nil, .boolean true, .int64 (-3), .string "hi".data,
        .data [0, 255], .dict [(.string "k".data, .int64 7)]]) = true
    ∧ rtA (Attr.list [.nil, .boolean true, .int64 (-3), .string "hi".data,
        .data [0, 255], .dict [(.string "k".data, .int64 7)]]) = true
    ∧ s2a (encLen (Attr.list [.nil, .boolean true, .int64 (-3), .string "hi".data,
          .data [0, 255], .dict [(.string "k".data, .int64 7)]]))
        (encA (Attr.list [.nil, .boolean true, .int64 (-3), .string "hi".data,
          .data [0, 255], .dict [(.string "k".data, .int64 7)]])) 0 .nil
      = (Attr.list [.nil, .boolean true, .int64 (-3), .string "hi".data,
          .data [0, 255], .dict [(.string "k".data, .int64 7)]],
        encLen (Attr.list [.nil, .boolean true, .int64 (-3), .string "hi".data,
          .data [0, 255], .dict [(.string "k".data, .int64 7)]])) :=
  ⟨by decide, by decide,
    c1_encode_decode (Attr.list [.nil, .boolean true, .int64 (-3), .string "hi".data,
      .data [0, 255], .dict [(.string "k".data, .int64 7)]]) (by decide) (by decide)⟩

/-- C1, counterexample to the claim as stated: `[1, None]` is a
constructible value containing no interface reference, yet its encoded
text `[1,None]` decodes to `[1, 1]` — the decoder's `None` branch
(attribute.cpp:576-580) writes nothing through the output pointer, so the
list loop's persistent element register still holds the previously decoded
`1` and that value is appended instead of a Nil. -/
theorem c1_counterexample :
    wfA (Attr.list [.int64 1, .nil]) = true
    ∧ s2a (encLen (Attr.list [.int64 1, .nil]))
        (encA (Attr.list [.int64 1, .nil])) 0 .nil
      = (Attr.list [.int64 1, .int64 1], encLen (Attr.list [.int64 1, .nil]))
    ∧ Attr.list [.int64 1, .int64 1] ≠ Attr.list [.int64 1, .nil] := by
  refine ⟨by decide, by decide, by decide⟩

end RV
